import Mathlib

/-!
# Verification of the qreverse repository

This file gives a shallow embedding of the array-reversal primitive of the
qreverse repository and proves properties about it.

The embedded code:

* `src/include/qreverse.hpp` — the current implementation: the generic
  `qReverse<ElementSize>` byte-block swap loop and the specializations
  `qReverse<1>`, `qReverse<2>`, `qReverse<4>` with their tiered SIMD /
  byte-swap schedules.
* `src/qreverse.hpp` — the historical revision: `qreverse_imp` (the
  `uint8_t` and `uint16_t` cases) and the `qreverse` entry point.
* `src/tests/verify.cpp` — the verification driver.

Memory is modelled as a total function from byte addresses (`Nat`) to bytes
(`Fin 256`) so that frame properties can be stated over the whole address
space.  `size_t` arithmetic is modelled exactly (modulo `2 ^ 64`) wherever
wrap-around can occur (the historical `qreverse` entry, the historical loop
guards); in loop bodies that only execute under guards that exclude
wrap-around, plain `Nat` arithmetic coincides with `size_t` arithmetic.
SIMD intrinsics (`_mm_shuffle_epi8`, `_mm256_permute2x128_si256`,
`_mm512_permutexvar_epi64`, `_mm_shuffle_epi32`) and the `bswap` builtins
are modelled by their documented byte-level semantics.
-/

/-- The constant `2 ^ 64`: one more than the largest value of `std::size_t` / the value
returned by `ULLONG_MAX + 1` on the LP64 targets the code is written for. -/
def U64 : Nat := 2 ^ 64

/-- Wrapping `size_t` subtraction `a - b`, i.e. subtraction modulo `2 ^ 64`. -/
def sub64 (a b : Nat) : Nat := (a + (U64 - b % U64)) % U64

/-- A byte, the value of one `std::uint8_t` memory cell. -/
abbrev Byte := Fin 256

/-- Byte-addressed memory.  The array argument of the reversal routines is
identified with address `0`; addresses beyond the array model the rest of
the address space (used for frame properties). -/
abbrev Mem := Nat → Byte

/-- Update one byte of memory. -/
def memUpd (mem : Mem) (a : Nat) (v : Byte) : Mem :=
  fun x => if x = a then v else mem x

/-- Little-endian load of `n` bytes starting at address `a`, as performed by
`*reinterpret_cast<std::uintN_t*>(&Array8[a])` on the little-endian x86
targets the SIMD code is written for. -/
def loadLE (mem : Mem) : Nat → Nat → Nat
  | _, 0 => 0
  | a, n + 1 => (mem a).val + 256 * loadLE mem (a + 1) n

/-- Little-endian store of the low `n` bytes of `x` starting at address `a`. -/
def storeLE : Nat → Mem → Nat → Nat → Mem
  | 0, mem, _, _ => mem
  | n + 1, mem, a, x => storeLE n (memUpd mem a ⟨x % 256, by omega⟩) (a + 1) (x / 256)

/-- Reverse the `n` low-order bytes of `x`: the semantics of the
`__builtin_bswap16/32/64` and `_byteswap_*` intrinsics (and of the portable
mask-and-shift fallbacks in both headers). -/
def bswapN : Nat → Nat → Nat
  | 0, _ => 0
  | n + 1, x => x % 256 * 256 ^ n + bswapN n (x / 256)

/-- Function `Swap64` of `src/include/qreverse.hpp` / `src/qreverse.hpp`. -/
def Swap64 (x : Nat) : Nat := bswapN 8 x

/-- Function `Swap32` of `src/include/qreverse.hpp` / `src/qreverse.hpp`. -/
def Swap32 (x : Nat) : Nat := bswapN 4 x

/-- Function `Swap16` of `src/include/qreverse.hpp` / `src/qreverse.hpp`. -/
def Swap16 (x : Nat) : Nat := bswapN 2 x

/-- A SIMD register, byte 0 first. -/
abbrev Reg := Nat → Byte

/-- Unaligned vector load (`_mm_loadu_si128` and friends). -/
def loadReg (mem : Mem) (a : Nat) : Reg := fun k => mem (a + k)

/-- Unaligned vector store of a `W`-byte register (`_mm_storeu_si128` and
friends). -/
def storeReg (W : Nat) (mem : Mem) (a : Nat) (v : Reg) : Mem :=
  fun x => if a ≤ x ∧ x < a + W then v (x - a) else mem x

/-- Intrinsic `_mm_set_epi8` / `_mm256_set_epi8`: the arguments are listed from the
most significant byte down to byte 0, so byte `k` of the register is the
`(length - 1 - k)`-th argument. -/
def setEpi8 (es : List Nat) : Nat → Nat :=
  fun k => es.getD (es.length - 1 - k) 0

/-- Intrinsic `_mm512_set_epi32`: arguments from the most significant 32-bit lane down
to lane 0; byte `k` is byte `k % 4` of the `(k / 4)`-th lane. -/
def setEpi32 (es : List Nat) : Nat → Nat :=
  fun k => es.getD (es.length - 1 - k / 4) 0 / 256 ^ (k % 4) % 256

/-- Intrinsic `_mm512_set_epi64`: arguments from the most significant 64-bit lane down
to lane 0. -/
def setEpi64 (es : List Nat) : Nat → Nat :=
  fun q => es.getD (es.length - 1 - q) 0

/-- Intrinsic `_mm_shuffle_epi8` / `_mm256_shuffle_epi8` / `_mm512_shuffle_epi8`:
per-128-bit-lane byte shuffle.  Output byte `k` is zero if bit 7 of control
byte `k` is set, and otherwise byte `16 * (k / 16) + (control k mod 16)` of
the source. -/
def pshufb (v : Reg) (m : Nat → Nat) : Reg :=
  fun k => if 128 ≤ m k % 256 then 0 else v (16 * (k / 16) + m k % 16)

/-- The 128-bit-lane selector of `_mm256_permute2x128_si256` /
`_mm256_permute2f128_si256` for one 2-bit control field (the zeroing bits
are clear in every control byte the code uses). -/
def sel128 (a b : Reg) : Nat → Nat → Byte := fun c k =>
  match c with
  | 0 => a k
  | 1 => a (k + 16)
  | 2 => b k
  | _ => b (k + 16)

/-- Intrinsic `_mm256_permute2x128_si256(a, b, ctrl)` (also
`_mm256_permute2f128_si256`, identical semantics on integer data). -/
def permute2x128 (a b : Reg) (ctrl : Nat) : Reg := fun k =>
  if k < 16 then sel128 a b (ctrl % 4) k else sel128 a b (ctrl / 16 % 4) (k - 16)

/-- Intrinsic `_mm512_permutexvar_epi64(idx, v)`: 64-bit-lane permute. -/
def permutexvar64 (idx : Nat → Nat) (v : Reg) : Reg :=
  fun k => v (8 * (idx (k / 8) % 8) + k % 8)

/-- Intrinsic `_mm_shuffle_epi32(v, ctrl)`: 32-bit-lane shuffle with an immediate
control byte, two bits per destination lane. -/
def pshufd (v : Reg) (ctrl : Nat) : Reg :=
  fun k => v (4 * (ctrl / 4 ^ (k / 4) % 4) + k % 4)

/-- Macro `_MM_SHUFFLE(z, y, x, w)`. -/
def mmShuffle (z y x w : Nat) : Nat := z * 64 + y * 16 + x * 4 + w

/-- The descending byte-shuffle mask of the SSSE3 tier of `qReverse<1>`
(`_mm_set_epi8(0, 1, ..., 15)`). -/
def shuffleRev16 : Nat → Nat :=
  setEpi8 [0, 1, 2, 3, 4, 5, 6, 7, 8, 9, 10, 11, 12, 13, 14, 15]

/-- The per-lane descending byte-shuffle mask of the AVX2 tier of
`qReverse<1>` (`_mm256_set_epi8` with the descending pattern twice). -/
def shuffleRev32 : Nat → Nat :=
  setEpi8 [0, 1, 2, 3, 4, 5, 6, 7, 8, 9, 10, 11, 12, 13, 14, 15,
           0, 1, 2, 3, 4, 5, 6, 7, 8, 9, 10, 11, 12, 13, 14, 15]

/-- Mask `ShuffleRev8` of the AVX-512 tier of `qReverse<1>`. -/
def shuffleRev8x512 : Nat → Nat :=
  setEpi32 [0x00010203, 0x4050607, 0x8090a0b, 0xc0d0e0f,
            0x00010203, 0x4050607, 0x8090a0b, 0xc0d0e0f,
            0x00010203, 0x4050607, 0x8090a0b, 0xc0d0e0f,
            0x00010203, 0x4050607, 0x8090a0b, 0xc0d0e0f]

/-- Mask `ShuffleRev64` of the AVX-512 tier of `qReverse<1>`
(`_mm512_set_epi64(1, 0, 3, 2, 5, 4, 7, 6)`). -/
def shuffleRev64q : Nat → Nat := setEpi64 [1, 0, 3, 2, 5, 4, 7, 6]

/-- The byte-pair shuffle mask of the `S = 2` kernels
(`_mm_set_epi8(1, 0, 3, 2, 5, 4, 7, 6, 9, 8, 11, 10, 13, 12, 15, 14)`). -/
def shuffleRevPair16 : Nat → Nat :=
  setEpi8 [1, 0, 3, 2, 5, 4, 7, 6, 9, 8, 11, 10, 13, 12, 15, 14]

/-- The 32-byte byte-pair shuffle mask of the historical `S = 2` AVX2 tier. -/
def shuffleRevPair32 : Nat → Nat :=
  setEpi8 [1, 0, 3, 2, 5, 4, 7, 6, 9, 8, 11, 10, 13, 12, 15, 14,
           1, 0, 3, 2, 5, 4, 7, 6, 9, 8, 11, 10, 13, 12, 15, 14]

lemma shuffleRev16_spec : ∀ t < 16, shuffleRev16 t = 15 - t := by decide

lemma shuffleRev32_spec : ∀ t < 32, shuffleRev32 t = 15 - t % 16 := by decide

lemma shuffleRev8x512_spec : ∀ t < 64, shuffleRev8x512 t = 15 - t % 16 := by decide

lemma shuffleRevPair16_spec :
    ∀ t < 16, shuffleRevPair16 t = 14 - 2 * (t / 2) + t % 2 := by decide

lemma shuffleRevPair32_spec :
    ∀ t < 32, shuffleRevPair32 t = 14 - 2 * (t % 16 / 2) + t % 2 := by decide

lemma pow256_pos (n : Nat) : 0 < 256 ^ n := by positivity

lemma loadLE_lt (mem : Mem) : ∀ n a, loadLE mem a n < 256 ^ n := by
  intro n
  induction n with
  | zero => intro a; simp [loadLE]
  | succ n ih =>
    intro a
    have h1 := (mem a).isLt
    have h2 := ih (a + 1)
    have h3 := pow256_pos n
    simp only [loadLE, pow_succ]
    omega

lemma loadLE_byte (mem : Mem) :
    ∀ n a k, k < n → loadLE mem a n / 256 ^ k % 256 = (mem (a + k)).val := by
  intro n
  induction n with
  | zero => omega
  | succ n ih =>
    intro a k hk
    cases k with
    | zero =>
      have h1 := (mem a).isLt
      simp only [loadLE, pow_zero, Nat.div_one, Nat.add_mul_mod_self_left, Nat.add_zero]
      omega
    | succ k =>
      have hdiv : loadLE mem a (n + 1) / 256 ^ (k + 1) =
          loadLE mem (a + 1) n / 256 ^ k := by
        simp only [loadLE]
        rw [pow_succ, mul_comm (256 ^ k) 256, ← Nat.div_div_eq_div_mul]
        congr 1
        rw [Nat.add_mul_div_left _ _ (by norm_num : (0:Nat) < 256)]
        have h1 := (mem a).isLt
        omega
      rw [hdiv, ih (a + 1) k (by omega)]
      have : a + 1 + k = a + (k + 1) := by omega
      rw [this]

lemma bswapN_lt : ∀ n x, bswapN n x < 256 ^ n := by
  intro n
  induction n with
  | zero => intro x; simp [bswapN]
  | succ n ih =>
    intro x
    have h1 : x % 256 ≤ 255 := by omega
    have h2 := ih (x / 256)
    simp only [bswapN, pow_succ]
    have := Nat.mul_le_mul_right (256 ^ n) h1
    omega

lemma bswapN_byte :
    ∀ n x k, k < n → bswapN n x / 256 ^ k % 256 = x / 256 ^ (n - 1 - k) % 256 := by
  intro n
  induction n with
  | zero => omega
  | succ n ih =>
    intro x k hk
    rcases Nat.lt_or_ge k n with h | h
    · have hB := bswapN_lt n (x / 256)
      have hsplit : bswapN (n + 1) x / 256 ^ k =
          x % 256 * 256 ^ (n - k) * 256 ^ k / 256 ^ k + bswapN n (x / 256) / 256 ^ k := by
        simp only [bswapN]
        rw [show x % 256 * 256 ^ n = x % 256 * 256 ^ (n - k) * 256 ^ k by
          rw [mul_assoc, ← pow_add]; congr 2; omega]
        rw [Nat.add_div_of_dvd_right ⟨x % 256 * 256 ^ (n - k), by ring⟩]
      rw [hsplit, Nat.mul_div_cancel _ (pow256_pos k)]
      have hnk : n - k = (n - k - 1) + 1 := by omega
      rw [hnk, pow_succ]
      rw [show x % 256 * (256 ^ (n - k - 1) * 256) = 256 * (x % 256 * 256 ^ (n - k - 1)) by
        ring]
      rw [Nat.mul_add_mod, ih (x / 256) k h, Nat.div_div_eq_div_mul, ← pow_succ']
      rw [show n - 1 - k + 1 = n + 1 - 1 - k from by omega]
    · obtain rfl : k = n := by omega
      have hB := bswapN_lt k (x / 256)
      simp only [bswapN]
      rw [Nat.add_div_of_dvd_right ⟨x % 256, by ring⟩, Nat.mul_div_cancel _ (pow256_pos k),
        Nat.div_eq_of_lt hB, show k + 1 - 1 - k = 0 from by omega, pow_zero, Nat.div_one]
      omega

lemma storeLE_frame :
    ∀ n mem a x y, (y < a ∨ a + n ≤ y) → storeLE n mem a x y = mem y := by
  intro n
  induction n with
  | zero => intro mem a x y _; rfl
  | succ n ih =>
    intro mem a x y hy
    simp only [storeLE]
    rw [ih _ _ _ _ (by omega)]
    simp only [memUpd]
    rw [if_neg (by omega)]

lemma storeLE_byte :
    ∀ n mem a x k, k < n → (storeLE n mem a x (a + k)).val = x / 256 ^ k % 256 := by
  intro n
  induction n with
  | zero => omega
  | succ n ih =>
    intro mem a x k hk
    cases k with
    | zero =>
      simp only [storeLE]
      rw [storeLE_frame n _ _ _ _ (by omega)]
      simp [memUpd]
    | succ k =>
      simp only [storeLE]
      have h : a + (k + 1) = (a + 1) + k := by omega
      rw [h, ih _ (a + 1) (x / 256) k (by omega), Nat.div_div_eq_div_mul, ← pow_succ']

/-- The body of one step of the SSSE3 tier of `qReverse<1>` (and of the
128-bit tier of the historical `uint8_t` case): load the 16-byte blocks at
`lo` and `hi`, byte-reverse each with `_mm_shuffle_epi8`, and store each at
the other's position (the store at `lo` happens first, as in the source). -/
def k128rev (mem : Mem) (lo hi : Nat) : Mem :=
  let Lower := pshufb (loadReg mem lo) shuffleRev16
  let Upper := pshufb (loadReg mem hi) shuffleRev16
  storeReg 16 (storeReg 16 mem lo Upper) hi Lower

/-- The body of one step of the AVX2 tier of `qReverse<1>` (and of the
historical `uint8_t` 256-bit tier): per-lane byte shuffle followed by
`_mm256_permute2x128_si256(x, x, 1)`, then the crossed stores. -/
def k256rev (mem : Mem) (lo hi : Nat) : Mem :=
  let L0 := pshufb (loadReg mem lo) shuffleRev32
  let Lower := permute2x128 L0 L0 1
  let U0 := pshufb (loadReg mem hi) shuffleRev32
  let Upper := permute2x128 U0 U0 1
  storeReg 32 (storeReg 32 mem lo Upper) hi Lower

/-- The body of one step of the AVX-512 tier of `qReverse<1>`: per-128-bit
lane byte reverse, then the 64-bit-lane permute that reverses the four
128-bit lanes, then the crossed stores. -/
def k512rev (mem : Mem) (lo hi : Nat) : Mem :=
  let L0 := pshufb (loadReg mem lo) shuffleRev8x512
  let Lower := permutexvar64 shuffleRev64q L0
  let U0 := pshufb (loadReg mem hi) shuffleRev8x512
  let Upper := permutexvar64 shuffleRev64q U0
  storeReg 64 (storeReg 64 mem lo Upper) hi Lower

/-- The body of one `Swap64` step (`BSWAP 64` tier of `qReverse<1>` and the
historical 64-bit tier): load 8-byte words at `lo` and `hi`, byte-swap
each, store each at the other's position. -/
def k64rev (mem : Mem) (lo hi : Nat) : Mem :=
  storeLE 8 (storeLE 8 mem lo (Swap64 (loadLE mem hi 8))) hi (Swap64 (loadLE mem lo 8))

/-- The body of one `Swap32` step. -/
def k32rev (mem : Mem) (lo hi : Nat) : Mem :=
  storeLE 4 (storeLE 4 mem lo (Swap32 (loadLE mem hi 4))) hi (Swap32 (loadLE mem lo 4))

/-- The body of one `Swap16` step. -/
def k16rev (mem : Mem) (lo hi : Nat) : Mem :=
  storeLE 2 (storeLE 2 mem lo (Swap16 (loadLE mem hi 2))) hi (Swap16 (loadLE mem lo 2))

/-- The body of one step of the SSSE3 tier of `qReverse<2>` (and of the
historical `uint16_t` 128-bit tier): byte-pair shuffle and crossed stores. -/
def k128revPair (mem : Mem) (lo hi : Nat) : Mem :=
  let Lower := pshufb (loadReg mem lo) shuffleRevPair16
  let Upper := pshufb (loadReg mem hi) shuffleRevPair16
  storeReg 16 (storeReg 16 mem lo Upper) hi Lower

/-- The body of one step of the historical `uint16_t` AVX2 tier: per-lane
byte-pair shuffle, 128-bit lane swap, crossed stores. -/
def k256revPair (mem : Mem) (lo hi : Nat) : Mem :=
  let L0 := pshufb (loadReg mem lo) shuffleRevPair32
  let Lower := permute2x128 L0 L0 1
  let U0 := pshufb (loadReg mem hi) shuffleRevPair32
  let Upper := permute2x128 U0 U0 1
  storeReg 32 (storeReg 32 mem lo Upper) hi Lower

/-- The body of one step of the SSSE3 tier of `qReverse<4>`:
`_mm_shuffle_epi32` with `_MM_SHUFFLE(0, 1, 2, 3)` and crossed stores. -/
def k128revQuad (mem : Mem) (lo hi : Nat) : Mem :=
  let Lower := pshufd (loadReg mem lo) (mmShuffle 0 1 2 3)
  let Upper := pshufd (loadReg mem hi) (mmShuffle 0 1 2 3)
  storeReg 16 (storeReg 16 mem lo Upper) hi Lower

/-- Exchange the `Sz`-byte elements with indices `a` and `b`: the semantics
of `Temp = ArrayN[a]; ArrayN[a] = ArrayN[b]; ArrayN[b] = Temp` in the
generic `qReverse` (with `Sz = ElementSize`), of the naive tails of
`qReverse<1>`, `qReverse<2>`, `qReverse<4>`, and of `std::swap` in the
historical naive loop. -/
def blockSwap (Sz : Nat) (mem : Mem) (a b : Nat) : Mem :=
  fun x =>
    if Sz * a ≤ x ∧ x < Sz * a + Sz then mem (Sz * b + (x - Sz * a))
    else if Sz * b ≤ x ∧ x < Sz * b + Sz then mem (Sz * a + (x - Sz * b))
    else mem x

lemma pshufb_rev16 (v : Reg) (t : Nat) (ht : t < 16) :
    pshufb v shuffleRev16 t = v (15 - t) := by
  have h1 := shuffleRev16_spec t ht
  simp only [pshufb, h1]
  rw [if_neg (by omega)]
  congr 1
  omega

lemma pshufb_rev32 (v : Reg) (t : Nat) (ht : t < 32) :
    permute2x128 (pshufb v shuffleRev32) (pshufb v shuffleRev32) 1 t = v (31 - t) := by
  rcases Nat.lt_or_ge t 16 with h | h
  · have h1 := shuffleRev32_spec (t + 16) (by omega)
    simp only [permute2x128, if_pos h]
    show sel128 _ _ 1 t = _
    simp only [sel128, pshufb, h1]
    rw [if_neg (by omega)]
    congr 1
    omega
  · have h1 := shuffleRev32_spec (t - 16) (by omega)
    simp only [permute2x128, if_neg (by omega : ¬ t < 16)]
    show sel128 _ _ 0 (t - 16) = _
    simp only [sel128, pshufb, h1]
    rw [if_neg (by omega)]
    congr 1
    omega

lemma shuffleRev64q_lt : ∀ q < 8, 8 * (shuffleRev64q q % 8) < 64 := by decide

lemma rev512_idx : ∀ t < 64,
    16 * ((8 * (shuffleRev64q (t / 8) % 8) + t % 8) / 16) +
      (15 - (8 * (shuffleRev64q (t / 8) % 8) + t % 8) % 16) = 63 - t := by decide

lemma pshufb_rev64 (v : Reg) (t : Nat) (ht : t < 64) :
    permutexvar64 shuffleRev64q (pshufb v shuffleRev8x512) t = v (63 - t) := by
  have hq := shuffleRev64q_lt (t / 8) (by omega)
  have hidx := rev512_idx t ht
  simp only [permutexvar64, pshufb]
  have h1 := shuffleRev8x512_spec (8 * (shuffleRev64q (t / 8) % 8) + t % 8) (by omega)
  rw [h1, if_neg (by omega)]
  congr 1
  omega

lemma pshufb_revPair16 (v : Reg) (t : Nat) (ht : t < 16) :
    pshufb v shuffleRevPair16 t = v (14 - 2 * (t / 2) + t % 2) := by
  have h1 := shuffleRevPair16_spec t ht
  simp only [pshufb, h1]
  rw [if_neg (by omega)]
  congr 1
  omega

lemma pshufb_revPair32 (v : Reg) (t : Nat) (ht : t < 32) :
    permute2x128 (pshufb v shuffleRevPair32) (pshufb v shuffleRevPair32) 1 t =
      v (30 - 2 * (t / 2) + t % 2) := by
  rcases Nat.lt_or_ge t 16 with h | h
  · have h1 := shuffleRevPair32_spec (t + 16) (by omega)
    simp only [permute2x128, if_pos h]
    show sel128 _ _ 1 t = _
    simp only [sel128, pshufb, h1]
    rw [if_neg (by omega)]
    congr 1
    omega
  · have h1 := shuffleRevPair32_spec (t - 16) (by omega)
    simp only [permute2x128, if_neg (by omega : ¬ t < 16)]
    show sel128 _ _ 0 (t - 16) = _
    simp only [sel128, pshufb, h1]
    rw [if_neg (by omega)]
    congr 1
    omega

lemma pshufd_idx : ∀ t < 16,
    4 * (mmShuffle 0 1 2 3 / 4 ^ (t / 4) % 4) + t % 4 = 12 - 4 * (t / 4) + t % 4 := by
  decide

lemma pshufd_revQuad (v : Reg) (t : Nat) (ht : t < 16) :
    pshufd v (mmShuffle 0 1 2 3) t = v (12 - 4 * (t / 4) + t % 4) := by
  have h1 := pshufd_idx t ht
  simp only [pshufd]
  rw [h1]

lemma k128rev_eq (mem : Mem) (lo hi x : Nat) (h : lo + 16 ≤ hi) :
    k128rev mem lo hi x =
      if lo ≤ x ∧ x < lo + 16 then mem (hi + (15 - (x - lo)))
      else if hi ≤ x ∧ x < hi + 16 then mem (lo + (15 - (x - hi)))
      else mem x := by
  by_cases hx1 : lo ≤ x ∧ x < lo + 16
  · have hx2 : ¬ (hi ≤ x ∧ x < hi + 16) := by omega
    simp only [k128rev, storeReg]
    rw [if_neg hx2, if_pos hx1, pshufb_rev16 _ _ (by omega)]
    simp only [loadReg]
    rw [if_pos hx1]
  · by_cases hx2 : hi ≤ x ∧ x < hi + 16
    · simp only [k128rev, storeReg]
      rw [if_pos hx2, pshufb_rev16 _ _ (by omega)]
      simp only [loadReg]
      rw [if_neg hx1, if_pos hx2]
    · simp only [k128rev, storeReg]
      rw [if_neg hx2, if_neg hx1, if_neg hx1, if_neg hx2]

lemma k256rev_eq (mem : Mem) (lo hi x : Nat) (h : lo + 32 ≤ hi) :
    k256rev mem lo hi x =
      if lo ≤ x ∧ x < lo + 32 then mem (hi + (31 - (x - lo)))
      else if hi ≤ x ∧ x < hi + 32 then mem (lo + (31 - (x - hi)))
      else mem x := by
  by_cases hx1 : lo ≤ x ∧ x < lo + 32
  · have hx2 : ¬ (hi ≤ x ∧ x < hi + 32) := by omega
    simp only [k256rev, storeReg]
    rw [if_neg hx2, if_pos hx1, pshufb_rev32 _ _ (by omega)]
    simp only [loadReg]
    rw [if_pos hx1]
  · by_cases hx2 : hi ≤ x ∧ x < hi + 32
    · simp only [k256rev, storeReg]
      rw [if_pos hx2, pshufb_rev32 _ _ (by omega)]
      simp only [loadReg]
      rw [if_neg hx1, if_pos hx2]
    · simp only [k256rev, storeReg]
      rw [if_neg hx2, if_neg hx1, if_neg hx1, if_neg hx2]

lemma k512rev_eq (mem : Mem) (lo hi x : Nat) (h : lo + 64 ≤ hi) :
    k512rev mem lo hi x =
      if lo ≤ x ∧ x < lo + 64 then mem (hi + (63 - (x - lo)))
      else if hi ≤ x ∧ x < hi + 64 then mem (lo + (63 - (x - hi)))
      else mem x := by
  by_cases hx1 : lo ≤ x ∧ x < lo + 64
  · have hx2 : ¬ (hi ≤ x ∧ x < hi + 64) := by omega
    simp only [k512rev, storeReg]
    rw [if_neg hx2, if_pos hx1, pshufb_rev64 _ _ (by omega)]
    simp only [loadReg]
    rw [if_pos hx1]
  · by_cases hx2 : hi ≤ x ∧ x < hi + 64
    · simp only [k512rev, storeReg]
      rw [if_pos hx2, pshufb_rev64 _ _ (by omega)]
      simp only [loadReg]
      rw [if_neg hx1, if_pos hx2]
    · simp only [k512rev, storeReg]
      rw [if_neg hx2, if_neg hx1, if_neg hx1, if_neg hx2]

lemma kswapLE_eq (n : Nat) (mem : Mem) (lo hi x : Nat) (h : lo + n ≤ hi) :
    storeLE n (storeLE n mem lo (bswapN n (loadLE mem hi n))) hi
        (bswapN n (loadLE mem lo n)) x =
      if lo ≤ x ∧ x < lo + n then mem (hi + (n - 1 - (x - lo)))
      else if hi ≤ x ∧ x < hi + n then mem (lo + (n - 1 - (x - hi)))
      else mem x := by
  by_cases hx1 : lo ≤ x ∧ x < lo + n
  · obtain ⟨k, rfl, hkn⟩ : ∃ k, x = lo + k ∧ k < n := ⟨x - lo, by omega, by omega⟩
    rw [if_pos hx1, storeLE_frame n _ hi _ _ (by omega)]
    apply Fin.ext
    rw [storeLE_byte n _ lo _ k hkn, bswapN_byte n _ k hkn,
      loadLE_byte mem n hi (n - 1 - k) (by omega)]
    congr 2
    omega
  · by_cases hx2 : hi ≤ x ∧ x < hi + n
    · obtain ⟨k, rfl, hkn⟩ : ∃ k, x = hi + k ∧ k < n := ⟨x - hi, by omega, by omega⟩
      rw [if_neg hx1, if_pos hx2]
      apply Fin.ext
      rw [storeLE_byte n _ hi _ k hkn, bswapN_byte n _ k hkn,
        loadLE_byte mem n lo (n - 1 - k) (by omega)]
      congr 2
      omega
    · rw [if_neg hx1, if_neg hx2, storeLE_frame n _ hi _ _ (by omega),
        storeLE_frame n _ lo _ _ (by omega)]

lemma k64rev_eq (mem : Mem) (lo hi x : Nat) (h : lo + 8 ≤ hi) :
    k64rev mem lo hi x =
      if lo ≤ x ∧ x < lo + 8 then mem (hi + (7 - (x - lo)))
      else if hi ≤ x ∧ x < hi + 8 then mem (lo + (7 - (x - hi)))
      else mem x := by
  have := kswapLE_eq 8 mem lo hi x h
  simpa [k64rev, Swap64] using this

lemma k32rev_eq (mem : Mem) (lo hi x : Nat) (h : lo + 4 ≤ hi) :
    k32rev mem lo hi x =
      if lo ≤ x ∧ x < lo + 4 then mem (hi + (3 - (x - lo)))
      else if hi ≤ x ∧ x < hi + 4 then mem (lo + (3 - (x - hi)))
      else mem x := by
  have := kswapLE_eq 4 mem lo hi x h
  simpa [k32rev, Swap32] using this

lemma k16rev_eq (mem : Mem) (lo hi x : Nat) (h : lo + 2 ≤ hi) :
    k16rev mem lo hi x =
      if lo ≤ x ∧ x < lo + 2 then mem (hi + (1 - (x - lo)))
      else if hi ≤ x ∧ x < hi + 2 then mem (lo + (1 - (x - hi)))
      else mem x := by
  have := kswapLE_eq 2 mem lo hi x h
  simpa [k16rev, Swap16] using this

lemma k128revPair_eq (mem : Mem) (lo hi x : Nat) (h : lo + 16 ≤ hi) :
    k128revPair mem lo hi x =
      if lo ≤ x ∧ x < lo + 16 then mem (hi + (14 - 2 * ((x - lo) / 2) + (x - lo) % 2))
      else if hi ≤ x ∧ x < hi + 16 then mem (lo + (14 - 2 * ((x - hi) / 2) + (x - hi) % 2))
      else mem x := by
  by_cases hx1 : lo ≤ x ∧ x < lo + 16
  · have hx2 : ¬ (hi ≤ x ∧ x < hi + 16) := by omega
    simp only [k128revPair, storeReg]
    rw [if_neg hx2, if_pos hx1, pshufb_revPair16 _ _ (by omega)]
    simp only [loadReg]
    rw [if_pos hx1]
  · by_cases hx2 : hi ≤ x ∧ x < hi + 16
    · simp only [k128revPair, storeReg]
      rw [if_pos hx2, pshufb_revPair16 _ _ (by omega)]
      simp only [loadReg]
      rw [if_neg hx1, if_pos hx2]
    · simp only [k128revPair, storeReg]
      rw [if_neg hx2, if_neg hx1, if_neg hx1, if_neg hx2]

lemma k256revPair_eq (mem : Mem) (lo hi x : Nat) (h : lo + 32 ≤ hi) :
    k256revPair mem lo hi x =
      if lo ≤ x ∧ x < lo + 32 then mem (hi + (30 - 2 * ((x - lo) / 2) + (x - lo) % 2))
      else if hi ≤ x ∧ x < hi + 32 then mem (lo + (30 - 2 * ((x - hi) / 2) + (x - hi) % 2))
      else mem x := by
  by_cases hx1 : lo ≤ x ∧ x < lo + 32
  · have hx2 : ¬ (hi ≤ x ∧ x < hi + 32) := by omega
    simp only [k256revPair, storeReg]
    rw [if_neg hx2, if_pos hx1, pshufb_revPair32 _ _ (by omega)]
    simp only [loadReg]
    rw [if_pos hx1]
  · by_cases hx2 : hi ≤ x ∧ x < hi + 32
    · simp only [k256revPair, storeReg]
      rw [if_pos hx2, pshufb_revPair32 _ _ (by omega)]
      simp only [loadReg]
      rw [if_neg hx1, if_pos hx2]
    · simp only [k256revPair, storeReg]
      rw [if_neg hx2, if_neg hx1, if_neg hx1, if_neg hx2]

lemma k128revQuad_eq (mem : Mem) (lo hi x : Nat) (h : lo + 16 ≤ hi) :
    k128revQuad mem lo hi x =
      if lo ≤ x ∧ x < lo + 16 then mem (hi + (12 - 4 * ((x - lo) / 4) + (x - lo) % 4))
      else if hi ≤ x ∧ x < hi + 16 then mem (lo + (12 - 4 * ((x - hi) / 4) + (x - hi) % 4))
      else mem x := by
  by_cases hx1 : lo ≤ x ∧ x < lo + 16
  · have hx2 : ¬ (hi ≤ x ∧ x < hi + 16) := by omega
    simp only [k128revQuad, storeReg]
    rw [if_neg hx2, if_pos hx1, pshufd_revQuad _ _ (by omega)]
    simp only [loadReg]
    rw [if_pos hx1]
  · by_cases hx2 : hi ≤ x ∧ x < hi + 16
    · simp only [k128revQuad, storeReg]
      rw [if_pos hx2, pshufd_revQuad _ _ (by omega)]
      simp only [loadReg]
      rw [if_neg hx1, if_pos hx2]
    · simp only [k128revQuad, storeReg]
      rw [if_neg hx2, if_neg hx1, if_neg hx1, if_neg hx2]

lemma div_block_iff (Sz c x : Nat) (hSz : 0 < Sz) :
    (Sz * c ≤ x ∧ x < Sz * c + Sz) ↔ x / Sz = c := by
  constructor
  · rintro ⟨h1, h2⟩
    have ha : c ≤ x / Sz := (Nat.le_div_iff_mul_le hSz).mpr (by rwa [mul_comm])
    have hb : x / Sz < c + 1 :=
      (Nat.div_lt_iff_lt_mul hSz).mpr (by rw [add_mul, one_mul, mul_comm c Sz]; omega)
    omega
  · rintro rfl
    have hd := Nat.div_add_mod x Sz
    have hm := Nat.mod_lt x hSz
    omega

lemma blockSwap_eq (Sz : Nat) (hSz : 0 < Sz) (mem : Mem) (a b x : Nat) :
    blockSwap Sz mem a b x =
      if x / Sz = a then mem (Sz * b + x % Sz)
      else if x / Sz = b then mem (Sz * a + x % Sz)
      else mem x := by
  simp only [blockSwap]
  by_cases h1 : x / Sz = a
  · rw [if_pos ((div_block_iff Sz a x hSz).mpr h1), if_pos h1]
    have hd := Nat.div_add_mod x Sz
    rw [h1] at hd
    congr 1
    omega
  · rw [if_neg (fun hc => h1 ((div_block_iff Sz a x hSz).mp hc))]
    by_cases h2 : x / Sz = b
    · rw [if_pos ((div_block_iff Sz b x hSz).mpr h2), if_neg h1, if_pos h2]
      have hd := Nat.div_add_mod x Sz
      rw [h2] at hd
      congr 1
      omega
    · rw [if_neg (fun hc => h2 ((div_block_iff Sz b x hSz).mp hc)), if_neg h1, if_neg h2]

/-- The byte address that, after a full reversal of `Count` elements of `S`
bytes each, exchanges with address `a`: byte `a % S` of element
`Count - 1 - a / S`. -/
def elemMirror (S Count a : Nat) : Nat := S * (Count - 1 - a / S) + a % S

/-- Element-wise reversal of the region of `Count` `S`-byte elements based
at address 0: the specified final state of every reversal call.  Bytes at
or beyond `S * Count` are untouched. -/
def revRegion (S Count : Nat) (mem : Mem) : Mem :=
  fun a => if a / S < Count then mem (elemMirror S Count a) else mem a

/-- A partially reversed buffer: the first `i` and the last `i` elements
hold their mirror images, the middle still holds the original bytes.  This
is the loop invariant of every tier of every schedule. -/
def mirrored (S : Nat) (orig : Mem) (Count i : Nat) : Mem :=
  fun a =>
    if a / S < i ∨ (Count - i ≤ a / S ∧ a / S < Count) then orig (elemMirror S Count a)
    else orig a

/-- The semantic effect of one swap-with-reverse step of `E` elements on
each side, at element cursor `i`: every byte of the two affected blocks
moves to its mirror address, everything else is untouched. -/
def swapRevSemE (S E i Count : Nat) (mem : Mem) : Mem :=
  fun a =>
    if (i ≤ a / S ∧ a / S < i + E) ∨ (Count - i - E ≤ a / S ∧ a / S < Count - i) then
      mem (elemMirror S Count a)
    else mem a

lemma elemMirror_div (S Count a : Nat) (hS : 0 < S) :
    elemMirror S Count a / S = Count - 1 - a / S := by
  unfold elemMirror
  rw [Nat.mul_add_div hS, Nat.div_eq_of_lt (Nat.mod_lt _ hS), Nat.add_zero]

lemma elemMirror_mod (S Count a : Nat) (hS : 0 < S) :
    elemMirror S Count a % S = a % S := by
  unfold elemMirror
  rw [Nat.mul_add_mod]
  exact Nat.mod_mod_of_dvd a dvd_rfl

lemma elemMirror_invol (S Count a : Nat) (hS : 0 < S) (h : a / S < Count) :
    elemMirror S Count (elemMirror S Count a) = a := by
  conv_lhs => rw [elemMirror, elemMirror_div S Count a hS, elemMirror_mod S Count a hS]
  rw [show Count - 1 - (Count - 1 - a / S) = a / S from by
    revert h
    generalize a / S = q
    intro h
    omega]
  exact Nat.div_add_mod a S

lemma mirrored_zero (S : Nat) (orig : Mem) (Count : Nat) :
    mirrored S orig Count 0 = orig := by
  funext a
  have h : ¬ (a / S < 0 ∨ (Count - 0 ≤ a / S ∧ a / S < Count)) := by
    generalize a / S = q
    omega
  simp only [mirrored]
  rw [if_neg h]

lemma mirrored_full (S : Nat) (orig : Mem) (Count i : Nat) (hS : 0 < S)
    (h1 : Count ≤ 2 * i + 1) (h2 : 2 * i ≤ Count) :
    mirrored S orig Count i = revRegion S Count orig := by
  funext a
  simp only [mirrored, revRegion]
  by_cases hin : a / S < Count
  · rw [if_pos hin]
    by_cases hq : a / S < i ∨ (Count - i ≤ a / S ∧ a / S < Count)
    · rw [if_pos hq]
    · rw [if_neg hq]
      have hqi : a / S = i ∧ Count = 2 * i + 1 := by omega
      have hmid : elemMirror S Count a = a := by
        rw [elemMirror, show Count - 1 - a / S = a / S from by omega]
        exact Nat.div_add_mod a S
      rw [hmid]
  · rw [if_neg hin, if_neg (by omega)]

lemma mirrored_step (S E i Count : Nat) (orig : Mem) (hS : 0 < S) (hE : 0 < E)
    (hstep : i + E ≤ Count / 2) :
    swapRevSemE S E i Count (mirrored S orig Count i) = mirrored S orig Count (i + E) := by
  have h2 : 2 * (i + E) ≤ Count := by
    have := (Nat.le_div_iff_mul_le (by norm_num : (0:Nat) < 2)).mp hstep
    omega
  funext a
  simp only [swapRevSemE, mirrored]
  by_cases c1 : (i ≤ a / S ∧ a / S < i + E) ∨ (Count - i - E ≤ a / S ∧ a / S < Count - i)
  · rw [if_pos c1, if_neg (by rw [elemMirror_div S Count a hS]; omega),
      if_pos (by omega)]
  · rw [if_neg c1]
    by_cases c2 : a / S < i ∨ (Count - i ≤ a / S ∧ a / S < Count)
    · rw [if_pos c2, if_pos (by omega)]
    · rw [if_neg c2, if_neg (by omega)]

/-- The running state of a tiered schedule: the memory, the cursor `i` of
the source (in elements), and the trace of executed steps, each recorded
as `(block width in elements, cursor at execution)`. -/
structure TState where
  mem : Mem
  idx : Nat
  tr : List (Nat × Nat)

/-- Run `n` iterations of one tier: each iteration applies the tier body at
the current cursor and advances the cursor by `E` elements.  This is the
translation of `for (j = j0; j < B; ++j) { body(i); i += E; }`, whose trip
count is `B - j0`. -/
def tierRun (step : Mem → Nat → Mem) (E : Nat) : Nat → TState → TState
  | 0, s => s
  | n + 1, s => tierRun step E n ⟨step s.mem s.idx, s.idx + E, s.tr ++ [(E, s.idx)]⟩

/-- Predicate `Consecutive tr a b`: the trace `tr` is one contiguous staircase of
steps from cursor `a` to cursor `b`: each entry starts where the previous
one ended. -/
def Consecutive : List (Nat × Nat) → Nat → Nat → Prop
  | [], a, b => a = b
  | p :: rest, a, b => p.2 = a ∧ 0 < p.1 ∧ Consecutive rest (a + p.1) b

lemma consecutive_append {t1 t2 : List (Nat × Nat)} {a b c : Nat}
    (h1 : Consecutive t1 a b) (h2 : Consecutive t2 b c) :
    Consecutive (t1 ++ t2) a c := by
  induction t1 generalizing a with
  | nil => simpa [Consecutive] using h1 ▸ h2
  | cons p rest ih =>
    obtain ⟨hp, hE, hrest⟩ := h1
    exact ⟨hp, hE, ih hrest⟩

lemma consecutive_le {tr : List (Nat × Nat)} {a b : Nat}
    (h : Consecutive tr a b) : a ≤ b := by
  induction tr generalizing a with
  | nil => simp [Consecutive] at h; omega
  | cons q rest ih =>
    obtain ⟨_, hE, hrest⟩ := h
    have := ih hrest
    omega

lemma consecutive_mem {tr : List (Nat × Nat)} {a b : Nat}
    (h : Consecutive tr a b) : ∀ p ∈ tr, a ≤ p.2 ∧ p.2 + p.1 ≤ b ∧ 0 < p.1 := by
  induction tr generalizing a with
  | nil => intro p hp; simp at hp
  | cons q rest ih =>
    obtain ⟨hq, hE, hrest⟩ := h
    intro p hp
    have hab := consecutive_le hrest
    rcases List.mem_cons.mp hp with rfl | hp
    · omega
    · have := ih hrest p hp
      omega

/-- The invariant carried through the tiers of the current implementation:
memory is the `mirrored` state at the cursor, the cursor has not passed the
midpoint, and the trace is one staircase from 0 to the cursor. -/
def TInv (S : Nat) (orig : Mem) (Count : Nat) (s : TState) : Prop :=
  s.mem = mirrored S orig Count s.idx ∧ s.idx ≤ Count / 2 ∧ Consecutive s.tr 0 s.idx

lemma tierRun_spec (S E Count : Nat) (orig : Mem) (step : Mem → Nat → Mem)
    (hS : 0 < S) (hE : 0 < E)
    (hk : ∀ mem i, i + E ≤ Count / 2 → step mem i = swapRevSemE S E i Count mem) :
    ∀ n s, TInv S orig Count s →
      (∀ k < n, s.idx + E * k + E ≤ Count / 2) →
      TInv S orig Count (tierRun step E n s) ∧ (tierRun step E n s).idx = s.idx + E * n := by
  intro n
  induction n with
  | zero =>
    intro s hs _
    simpa [tierRun] using hs
  | succ n ih =>
    intro s hs hb
    obtain ⟨hmem, hle, htr⟩ := hs
    have hb0 : s.idx + E ≤ Count / 2 := by
      have := hb 0 (by omega)
      omega
    have hstep : step s.mem s.idx = mirrored S orig Count (s.idx + E) := by
      rw [hmem, hk _ _ hb0]
      exact mirrored_step S E s.idx Count orig hS hE hb0
    have hinv : TInv S orig Count ⟨step s.mem s.idx, s.idx + E, s.tr ++ [(E, s.idx)]⟩ :=
      ⟨hstep, hb0, consecutive_append htr ⟨rfl, hE, rfl⟩⟩
    have hb2 : ∀ k < n, (s.idx + E) + E * k + E ≤ Count / 2 := by
      intro k hkn
      have := hb (k + 1) (by omega)
      rw [Nat.mul_succ] at this
      omega
    have := ih ⟨step s.mem s.idx, s.idx + E, s.tr ++ [(E, s.idx)]⟩ hinv hb2
    simp only [tierRun]
    refine ⟨this.1, ?_⟩
    rw [this.2]
    simp only [Nat.mul_succ]
    omega

lemma simdTrip (W i0 Count : Nat) (hW : 0 < W) :
    ∀ k < Count / 2 / W - i0, i0 + W * k + W ≤ Count / 2 := by
  intro k hk
  have h1 : i0 + k + 1 ≤ Count / 2 / W := by omega
  have h2 : (i0 + k + 1) * W ≤ Count / 2 := (Nat.le_div_iff_mul_le hW).mp h1
  rw [add_mul, add_mul, one_mul] at h2
  have h3 : i0 ≤ i0 * W := Nat.le_mul_of_pos_right i0 hW
  rw [mul_comm W k]
  omega

lemma divTrip (W m Count : Nat) (hW : 0 < W) :
    ∀ k < Count / 2 / W - W * m / W, W * m + W * k + W ≤ Count / 2 := by
  intro k hk
  rw [Nat.mul_div_cancel_left m hW] at hk
  have h1 : m + k + 1 ≤ Count / 2 / W := by omega
  have h2 : (m + k + 1) * W ≤ Count / 2 := (Nat.le_div_iff_mul_le hW).mp h1
  rw [add_mul, add_mul, one_mul] at h2
  rw [mul_comm W m, mul_comm W k]
  omega

lemma half_le (i E Count : Nat) (h : i + E ≤ Count / 2) : 2 * (i + E) ≤ Count := by
  have := (Nat.le_div_iff_mul_le (by norm_num : (0:Nat) < 2)).mp h
  omega

lemma stepRev1_sem (W Count : Nat) (hW : 0 < W) (K : Mem → Nat → Nat → Mem)
    (hK : ∀ mem lo hi x, lo + W ≤ hi →
      K mem lo hi x =
        if lo ≤ x ∧ x < lo + W then mem (hi + (W - 1 - (x - lo)))
        else if hi ≤ x ∧ x < hi + W then mem (lo + (W - 1 - (x - hi)))
        else mem x) :
    ∀ mem i, i + W ≤ Count / 2 → K mem i (Count - i - W) = swapRevSemE 1 W i Count mem := by
  intro mem i h
  have h2 : 2 * (i + W) ≤ Count := half_le i W Count h
  funext x
  rw [hK mem i (Count - i - W) x (by omega)]
  simp only [swapRevSemE, Nat.div_one]
  by_cases hx1 : i ≤ x ∧ x < i + W
  · rw [if_pos hx1, if_pos (Or.inl hx1)]
    congr 1
    simp only [elemMirror, Nat.div_one, Nat.mod_one, one_mul]
    omega
  · by_cases hx2 : Count - i - W ≤ x ∧ x < Count - i - W + W
    · rw [if_neg hx1, if_pos hx2, if_pos (Or.inr (by omega))]
      congr 1
      simp only [elemMirror, Nat.div_one, Nat.mod_one, one_mul]
      omega
    · rw [if_neg hx1, if_neg hx2, if_neg (by omega)]

lemma k512rev_sem (Count : Nat) : ∀ mem i, i + 64 ≤ Count / 2 →
    k512rev mem i (Count - i - 64) = swapRevSemE 1 64 i Count mem :=
  stepRev1_sem 64 Count (by norm_num) k512rev (by
    intro mem lo hi x hlh
    rw [k512rev_eq mem lo hi x hlh])

lemma k256rev_sem (Count : Nat) : ∀ mem i, i + 32 ≤ Count / 2 →
    k256rev mem i (Count - i - 32) = swapRevSemE 1 32 i Count mem :=
  stepRev1_sem 32 Count (by norm_num) k256rev (by
    intro mem lo hi x hlh
    rw [k256rev_eq mem lo hi x hlh])

lemma k128rev_sem (Count : Nat) : ∀ mem i, i + 16 ≤ Count / 2 →
    k128rev mem i (Count - i - 16) = swapRevSemE 1 16 i Count mem :=
  stepRev1_sem 16 Count (by norm_num) k128rev (by
    intro mem lo hi x hlh
    rw [k128rev_eq mem lo hi x hlh])

lemma k64rev_sem (Count : Nat) : ∀ mem i, i + 8 ≤ Count / 2 →
    k64rev mem i (Count - i - 8) = swapRevSemE 1 8 i Count mem :=
  stepRev1_sem 8 Count (by norm_num) k64rev (by
    intro mem lo hi x hlh
    rw [k64rev_eq mem lo hi x hlh])

lemma k32rev_sem (Count : Nat) : ∀ mem i, i + 4 ≤ Count / 2 →
    k32rev mem i (Count - i - 4) = swapRevSemE 1 4 i Count mem :=
  stepRev1_sem 4 Count (by norm_num) k32rev (by
    intro mem lo hi x hlh
    rw [k32rev_eq mem lo hi x hlh])

lemma k16rev_sem (Count : Nat) : ∀ mem i, i + 2 ≤ Count / 2 →
    k16rev mem i (Count - i - 2) = swapRevSemE 1 2 i Count mem :=
  stepRev1_sem 2 Count (by norm_num) k16rev (by
    intro mem lo hi x hlh
    rw [k16rev_eq mem lo hi x hlh])

lemma blockSwap_sem (S Count : Nat) (hS : 0 < S) :
    ∀ mem i, i + 1 ≤ Count / 2 →
      blockSwap S mem i (Count - i - 1) = swapRevSemE S 1 i Count mem := by
  intro mem i h
  have h2 : 2 * (i + 1) ≤ Count := half_le i 1 Count h
  funext x
  rw [blockSwap_eq S hS mem i (Count - i - 1) x]
  simp only [swapRevSemE]
  by_cases h1 : x / S = i
  · rw [if_pos h1, if_pos (Or.inl (by rw [h1]; omega))]
    have hm : elemMirror S Count x = S * (Count - i - 1) + x % S := by
      unfold elemMirror
      rw [h1, show Count - 1 - i = Count - i - 1 from by omega]
    rw [hm]
  · by_cases hq2 : x / S = Count - i - 1
    · rw [if_neg h1, if_pos hq2, if_pos (Or.inr (by rw [hq2]; omega))]
      have hm : elemMirror S Count x = S * i + x % S := by
        unfold elemMirror
        rw [hq2, show Count - 1 - (Count - i - 1) = i from by omega]
      rw [hm]
    · rw [if_neg h1, if_neg hq2, if_neg (by
        revert h1 hq2
        generalize x / S = q
        intro h1 hq2
        omega)]

lemma k128revPair_sem (Count : Nat) : ∀ mem i, i + 8 ≤ Count / 2 →
    k128revPair mem (2 * i) (2 * (Count - i - 8)) = swapRevSemE 2 8 i Count mem := by
  intro mem i h
  have h2 : 2 * (i + 8) ≤ Count := half_le i 8 Count h
  funext x
  rw [k128revPair_eq mem (2 * i) (2 * (Count - i - 8)) x (by omega)]
  simp only [swapRevSemE]
  by_cases hx1 : 2 * i ≤ x ∧ x < 2 * i + 16
  · rw [if_pos hx1, if_pos (Or.inl (by omega))]
    simp only [elemMirror]
    congr 1
    omega
  · by_cases hx2 : 2 * (Count - i - 8) ≤ x ∧ x < 2 * (Count - i - 8) + 16
    · rw [if_neg hx1, if_pos hx2, if_pos (Or.inr (by omega))]
      simp only [elemMirror]
      congr 1
      omega
    · rw [if_neg hx1, if_neg hx2, if_neg (by omega)]

lemma k256revPair_sem (Count : Nat) : ∀ mem i, i + 16 ≤ Count / 2 →
    k256revPair mem (2 * i) (2 * (Count - i - 16)) = swapRevSemE 2 16 i Count mem := by
  intro mem i h
  have h2 : 2 * (i + 16) ≤ Count := half_le i 16 Count h
  funext x
  rw [k256revPair_eq mem (2 * i) (2 * (Count - i - 16)) x (by omega)]
  simp only [swapRevSemE]
  by_cases hx1 : 2 * i ≤ x ∧ x < 2 * i + 32
  · rw [if_pos hx1, if_pos (Or.inl (by omega))]
    simp only [elemMirror]
    congr 1
    omega
  · by_cases hx2 : 2 * (Count - i - 16) ≤ x ∧ x < 2 * (Count - i - 16) + 32
    · rw [if_neg hx1, if_pos hx2, if_pos (Or.inr (by omega))]
      simp only [elemMirror]
      congr 1
      omega
    · rw [if_neg hx1, if_neg hx2, if_neg (by omega)]

lemma k128revQuad_sem (Count : Nat) : ∀ mem i, i + 4 ≤ Count / 2 →
    k128revQuad mem (4 * i) (4 * (Count - i - 4)) = swapRevSemE 4 4 i Count mem := by
  intro mem i h
  have h2 : 2 * (i + 4) ≤ Count := half_le i 4 Count h
  funext x
  rw [k128revQuad_eq mem (4 * i) (4 * (Count - i - 4)) x (by omega)]
  simp only [swapRevSemE]
  by_cases hx1 : 4 * i ≤ x ∧ x < 4 * i + 16
  · rw [if_pos hx1, if_pos (Or.inl (by omega))]
    simp only [elemMirror]
    congr 1
    omega
  · by_cases hx2 : 4 * (Count - i - 4) ≤ x ∧ x < 4 * (Count - i - 4) + 16
    · rw [if_neg hx1, if_pos hx2, if_pos (Or.inr (by omega))]
      simp only [elemMirror]
      congr 1
      omega
    · rw [if_neg hx1, if_neg hx2, if_neg (by omega)]

lemma phase_simd (S E Count : Nat) (orig : Mem) (step : Mem → Nat → Mem)
    (hS : 0 < S) (hE : 0 < E)
    (hk : ∀ mem i, i + E ≤ Count / 2 → step mem i = swapRevSemE S E i Count mem)
    (s : TState) (h : TInv S orig Count s) :
    TInv S orig Count (tierRun step E (Count / 2 / E - s.idx) s) ∧
    ∀ d : Nat, d ∣ E → d ∣ s.idx → d ∣ (tierRun step E (Count / 2 / E - s.idx) s).idx := by
  have hb := simdTrip E s.idx Count hE
  have hspec := tierRun_spec S E Count orig step hS hE hk (Count / 2 / E - s.idx) s h hb
  refine ⟨hspec.1, ?_⟩
  intro d hdE hdI
  rw [hspec.2]
  exact Nat.dvd_add hdI (Dvd.dvd.mul_right hdE _)

lemma phase_div (S E Count : Nat) (orig : Mem) (step : Mem → Nat → Mem)
    (hS : 0 < S) (hE : 0 < E)
    (hk : ∀ mem i, i + E ≤ Count / 2 → step mem i = swapRevSemE S E i Count mem)
    (s : TState) (h : TInv S orig Count s) (hdvd : E ∣ s.idx) :
    TInv S orig Count (tierRun step E (Count / 2 / E - s.idx / E) s) ∧
    ∀ d : Nat, d ∣ E → d ∣ s.idx → d ∣ (tierRun step E (Count / 2 / E - s.idx / E) s).idx := by
  obtain ⟨m, hm⟩ := hdvd
  have hb : ∀ k < Count / 2 / E - s.idx / E, s.idx + E * k + E ≤ Count / 2 := by
    rw [hm]
    exact divTrip E m Count hE
  have hspec := tierRun_spec S E Count orig step hS hE hk _ s h hb
  refine ⟨hspec.1, ?_⟩
  intro d hdE hdI
  rw [hspec.2]
  exact Nat.dvd_add hdI (Dvd.dvd.mul_right hdE _)

lemma phase_naive (S Count : Nat) (orig : Mem) (step : Mem → Nat → Mem)
    (hS : 0 < S)
    (hk : ∀ mem i, i + 1 ≤ Count / 2 → step mem i = swapRevSemE S 1 i Count mem)
    (s : TState) (h : TInv S orig Count s) :
    TInv S orig Count (tierRun step 1 (Count / 2 - s.idx) s) ∧
    (tierRun step 1 (Count / 2 - s.idx) s).idx = Count / 2 := by
  have hb : ∀ k < Count / 2 - s.idx, s.idx + 1 * k + 1 ≤ Count / 2 := by
    intro k hk2
    omega
  have hspec := tierRun_spec S 1 Count orig step hS (by norm_num) hk _ s h hb
  refine ⟨hspec.1, ?_⟩
  rw [hspec.2]
  have := h.2.1
  omega

/-- The AVX-512 tier of `qReverse<1>` (lines 113–158), present when
`__AVX512F__ && __AVX512BW__`: `for (j = i; j < Count/2/64; ++j)` with a
64-byte reversal step at `&Array8[i]` and `&Array8[Count - i - 64]`. -/
def ph512 (f : Bool) (Count : Nat) (s : TState) : TState :=
  if f then tierRun (fun m i => k512rev m i (Count - i - 64)) 64 (Count / 2 / 64 - s.idx) s
  else s

/-- The AVX2 tier of `qReverse<1>` (lines 160–195). -/
def ph256 (f : Bool) (Count : Nat) (s : TState) : TState :=
  if f then tierRun (fun m i => k256rev m i (Count - i - 32)) 32 (Count / 2 / 32 - s.idx) s
  else s

/-- The SSSE3 tier of `qReverse<1>` (lines 197–228). -/
def ph128 (f : Bool) (Count : Nat) (s : TState) : TState :=
  if f then tierRun (fun m i => k128rev m i (Count - i - 16)) 16 (Count / 2 / 16 - s.idx) s
  else s

/-- The `BSWAP 64` tier of `qReverse<1>` (lines 230–246):
`for (j = i; j < Count/2/8; ++j)` — note `j` starts at the byte cursor `i`
itself, so the trip count is `Count/2/8 - i`. -/
def ph64 (Count : Nat) (s : TState) : TState :=
  tierRun (fun m i => k64rev m i (Count - i - 8)) 8 (Count / 2 / 8 - s.idx) s

/-- The `BSWAP 32` tier of `qReverse<1>` (lines 248–264):
`for (j = i / 4; j < Count/2/4; ++j)`. -/
def ph32 (Count : Nat) (s : TState) : TState :=
  tierRun (fun m i => k32rev m i (Count - i - 4)) 4 (Count / 2 / 4 - s.idx / 4) s

/-- The `BSWAP 16` tier of `qReverse<1>` (lines 266–282):
`for (j = i / 2; j < Count/2/2; ++j)`. -/
def ph16 (Count : Nat) (s : TState) : TState :=
  tierRun (fun m i => k16rev m i (Count - i - 2)) 2 (Count / 2 / 2 - s.idx / 2) s

/-- The naive tail of `qReverse<1>` (lines 286–293):
`for (; i < Count / 2; ++i)` exchanging bytes `i` and `Count - i - 1`. -/
def phNaive1 (Count : Nat) (s : TState) : TState :=
  tierRun (fun m i => blockSwap 1 m i (Count - i - 1)) 1 (Count / 2 - s.idx) s

/-- Specialization `qReverse<1>` of `src/include/qreverse.hpp` (lines 107–294), with one
Boolean per preprocessor-gated SIMD tier (`__AVX512F__ && __AVX512BW__`,
`__AVX2__`, `__SSSE3__`); the `bswap` tiers and the naive tail are always
compiled. -/
def qReverse1St (f512 f256 f128 : Bool) (mem : Mem) (Count : Nat) : TState :=
  phNaive1 Count (ph16 Count (ph32 Count (ph64 Count
    (ph128 f128 Count (ph256 f256 Count (ph512 f512 Count ⟨mem, 0, []⟩))))))

lemma ph512_spec (f : Bool) (Count : Nat) (orig : Mem) (s : TState)
    (h : TInv 1 orig Count s ∧ 8 ∣ s.idx) :
    TInv 1 orig Count (ph512 f Count s) ∧ 8 ∣ (ph512 f Count s).idx := by
  unfold ph512
  by_cases hf : f = true
  · rw [if_pos hf]
    have := phase_simd 1 64 Count orig _ (by norm_num) (by norm_num)
      (k512rev_sem Count) s h.1
    exact ⟨this.1, this.2 8 (by norm_num) h.2⟩
  · rw [if_neg hf]
    exact h

lemma ph256_spec (f : Bool) (Count : Nat) (orig : Mem) (s : TState)
    (h : TInv 1 orig Count s ∧ 8 ∣ s.idx) :
    TInv 1 orig Count (ph256 f Count s) ∧ 8 ∣ (ph256 f Count s).idx := by
  unfold ph256
  by_cases hf : f = true
  · rw [if_pos hf]
    have := phase_simd 1 32 Count orig _ (by norm_num) (by norm_num)
      (k256rev_sem Count) s h.1
    exact ⟨this.1, this.2 8 (by norm_num) h.2⟩
  · rw [if_neg hf]
    exact h

lemma ph128_spec (f : Bool) (Count : Nat) (orig : Mem) (s : TState)
    (h : TInv 1 orig Count s ∧ 8 ∣ s.idx) :
    TInv 1 orig Count (ph128 f Count s) ∧ 8 ∣ (ph128 f Count s).idx := by
  unfold ph128
  by_cases hf : f = true
  · rw [if_pos hf]
    have := phase_simd 1 16 Count orig _ (by norm_num) (by norm_num)
      (k128rev_sem Count) s h.1
    exact ⟨this.1, this.2 8 (by norm_num) h.2⟩
  · rw [if_neg hf]
    exact h

lemma ph64_spec (Count : Nat) (orig : Mem) (s : TState)
    (h : TInv 1 orig Count s ∧ 8 ∣ s.idx) :
    TInv 1 orig Count (ph64 Count s) ∧ 8 ∣ (ph64 Count s).idx := by
  unfold ph64
  have := phase_simd 1 8 Count orig _ (by norm_num) (by norm_num)
    (k64rev_sem Count) s h.1
  exact ⟨this.1, this.2 8 (by norm_num) h.2⟩

lemma ph32_spec (Count : Nat) (orig : Mem) (s : TState)
    (h : TInv 1 orig Count s ∧ 8 ∣ s.idx) :
    TInv 1 orig Count (ph32 Count s) ∧ 2 ∣ (ph32 Count s).idx := by
  unfold ph32
  have := phase_div 1 4 Count orig _ (by norm_num) (by norm_num)
    (k32rev_sem Count) s h.1 (dvd_trans (by norm_num) h.2)
  exact ⟨this.1, this.2 2 (by norm_num) (dvd_trans (by norm_num) h.2)⟩

lemma ph16_spec (Count : Nat) (orig : Mem) (s : TState)
    (h : TInv 1 orig Count s ∧ 2 ∣ s.idx) :
    TInv 1 orig Count (ph16 Count s) := by
  unfold ph16
  exact (phase_div 1 2 Count orig _ (by norm_num) (by norm_num)
    (k16rev_sem Count) s h.1 h.2).1

lemma qReverse1St_spec (f512 f256 f128 : Bool) (mem : Mem) (Count : Nat) :
    TInv 1 mem Count (qReverse1St f512 f256 f128 mem Count) ∧
    (qReverse1St f512 f256 f128 mem Count).idx = Count / 2 := by
  have h0 : TInv 1 mem Count ⟨mem, 0, []⟩ ∧ 8 ∣ (0 : Nat) :=
    ⟨⟨(mirrored_zero 1 mem Count).symm, Nat.zero_le _, rfl⟩, dvd_zero 8⟩
  have h1 := ph512_spec f512 Count mem _ h0
  have h2 := ph256_spec f256 Count mem _ h1
  have h3 := ph128_spec f128 Count mem _ h2
  have h4 := ph64_spec Count mem _ h3
  have h5 := ph32_spec Count mem _ h4
  have h6 := ph16_spec Count mem _ h5
  exact phase_naive 1 Count mem _ (by norm_num) (blockSwap_sem 1 Count (by norm_num)) _ h6

/-- The SSSE3 tier of `qReverse<2>` (lines 305–336): `Array16` indexing,
so element cursor `i` is byte address `2 * i`. -/
def ph128s2 (f : Bool) (Count : Nat) (s : TState) : TState :=
  if f then
    tierRun (fun m i => k128revPair m (2 * i) (2 * (Count - i - 8))) 8
      (Count / 2 / 8 - s.idx) s
  else s

/-- The naive tail of `qReverse<2>` (lines 339–346): `std::uint16_t`
element exchange. -/
def phNaive2 (Count : Nat) (s : TState) : TState :=
  tierRun (fun m i => blockSwap 2 m i (Count - i - 1)) 1 (Count / 2 - s.idx) s

/-- Specialization `qReverse<2>` of `src/include/qreverse.hpp` (lines 298–347). -/
def qReverse2St (f128 : Bool) (mem : Mem) (Count : Nat) : TState :=
  phNaive2 Count (ph128s2 f128 Count ⟨mem, 0, []⟩)

/-- The SSSE3 tier of `qReverse<4>` (lines 357–385): `Array32` indexing. -/
def ph128s4 (f : Bool) (Count : Nat) (s : TState) : TState :=
  if f then
    tierRun (fun m i => k128revQuad m (4 * i) (4 * (Count - i - 4))) 4
      (Count / 2 / 4 - s.idx) s
  else s

/-- The naive tail of `qReverse<4>` (lines 388–395). -/
def phNaive4 (Count : Nat) (s : TState) : TState :=
  tierRun (fun m i => blockSwap 4 m i (Count - i - 1)) 1 (Count / 2 - s.idx) s

/-- Specialization `qReverse<4>` of `src/include/qreverse.hpp` (lines 350–396). -/
def qReverse4St (f128 : Bool) (mem : Mem) (Count : Nat) : TState :=
  phNaive4 Count (ph128s4 f128 Count ⟨mem, 0, []⟩)

/-- The generic `qReverse<ElementSize>` of `src/include/qreverse.hpp`
(lines 79–104): `for (i = 0; i < Count / 2; ++i)` exchanging the
`ByteElement`s at indices `i` and `Count - i - 1`. -/
def qReverseGenericSt (S : Nat) (mem : Mem) (Count : Nat) : TState :=
  tierRun (fun m i => blockSwap S m i (Count - i - 1)) 1 (Count / 2) ⟨mem, 0, []⟩

lemma qReverse2St_spec (f128 : Bool) (mem : Mem) (Count : Nat) :
    TInv 2 mem Count (qReverse2St f128 mem Count) ∧
    (qReverse2St f128 mem Count).idx = Count / 2 := by
  have h0 : TInv 2 mem Count ⟨mem, 0, []⟩ :=
    ⟨(mirrored_zero 2 mem Count).symm, Nat.zero_le _, rfl⟩
  have h1 : TInv 2 mem Count (ph128s2 f128 Count ⟨mem, 0, []⟩) := by
    unfold ph128s2
    by_cases hf : f128 = true
    · rw [if_pos hf]
      exact (phase_simd 2 8 Count mem _ (by norm_num) (by norm_num)
        (k128revPair_sem Count) _ h0).1
    · rw [if_neg hf]
      exact h0
  exact phase_naive 2 Count mem _ (by norm_num) (blockSwap_sem 2 Count (by norm_num)) _ h1

lemma qReverse4St_spec (f128 : Bool) (mem : Mem) (Count : Nat) :
    TInv 4 mem Count (qReverse4St f128 mem Count) ∧
    (qReverse4St f128 mem Count).idx = Count / 2 := by
  have h0 : TInv 4 mem Count ⟨mem, 0, []⟩ :=
    ⟨(mirrored_zero 4 mem Count).symm, Nat.zero_le _, rfl⟩
  have h1 : TInv 4 mem Count (ph128s4 f128 Count ⟨mem, 0, []⟩) := by
    unfold ph128s4
    by_cases hf : f128 = true
    · rw [if_pos hf]
      exact (phase_simd 4 4 Count mem _ (by norm_num) (by norm_num)
        (k128revQuad_sem Count) _ h0).1
    · rw [if_neg hf]
      exact h0
  exact phase_naive 4 Count mem _ (by norm_num) (blockSwap_sem 4 Count (by norm_num)) _ h1

lemma qReverseGenericSt_spec (S : Nat) (hS : 0 < S) (mem : Mem) (Count : Nat) :
    TInv S mem Count (qReverseGenericSt S mem Count) ∧
    (qReverseGenericSt S mem Count).idx = Count / 2 := by
  have h0 : TInv S mem Count ⟨mem, 0, []⟩ :=
    ⟨(mirrored_zero S mem Count).symm, Nat.zero_le _, rfl⟩
  exact phase_naive S Count mem _ hS (blockSwap_sem S Count hS) _ h0

/-- The dispatch surface: calling `qReverse<ElementSize>` selects the
specialization for sizes 1, 2 and 4 and the generic template otherwise. -/
def qReverseSt (S : Nat) (f512 f256 f128 : Bool) (mem : Mem) (Count : Nat) : TState :=
  if S = 1 then qReverse1St f512 f256 f128 mem Count
  else if S = 2 then qReverse2St f128 mem Count
  else if S = 4 then qReverse4St f128 mem Count
  else qReverseGenericSt S mem Count

/-- The memory after a `qReverse<S>(Array, Count)` call. -/
def qReverse (S : Nat) (f512 f256 f128 : Bool) (mem : Mem) (Count : Nat) : Mem :=
  (qReverseSt S f512 f256 f128 mem Count).mem

/-- The trace of the steps executed by a `qReverse<S>(Array, Count)` call:
one `(block width in elements, element cursor)` pair per step, in
execution order. -/
def qReverseTrace (S : Nat) (f512 f256 f128 : Bool) (mem : Mem) (Count : Nat) :
    List (Nat × Nat) :=
  (qReverseSt S f512 f256 f128 mem Count).tr

lemma qReverseSt_spec (S : Nat) (hS : 0 < S) (f512 f256 f128 : Bool) (mem : Mem)
    (Count : Nat) :
    TInv S mem Count (qReverseSt S f512 f256 f128 mem Count) ∧
    (qReverseSt S f512 f256 f128 mem Count).idx = Count / 2 := by
  unfold qReverseSt
  by_cases h1 : S = 1
  · subst h1
    rw [if_pos rfl]
    exact qReverse1St_spec f512 f256 f128 mem Count
  · rw [if_neg h1]
    by_cases h2 : S = 2
    · subst h2
      rw [if_pos rfl]
      exact qReverse2St_spec f128 mem Count
    · rw [if_neg h2]
      by_cases h4 : S = 4
      · subst h4
        rw [if_pos rfl]
        exact qReverse4St_spec f128 mem Count
      · rw [if_neg h4]
        exact qReverseGenericSt_spec S hS mem Count

lemma qReverse_eq_revRegion (S : Nat) (hS : 0 < S) (f512 f256 f128 : Bool)
    (mem : Mem) (Count : Nat) :
    qReverse S f512 f256 f128 mem Count = revRegion S Count mem := by
  obtain ⟨⟨hmem, _, _⟩, hidx⟩ := qReverseSt_spec S hS f512 f256 f128 mem Count
  rw [qReverse, hmem, hidx]
  exact mirrored_full S mem Count (Count / 2) hS (by omega) (by omega)

lemma qReverseTrace_spec (S : Nat) (hS : 0 < S) (f512 f256 f128 : Bool)
    (mem : Mem) (Count : Nat) :
    Consecutive (qReverseTrace S f512 f256 f128 mem Count) 0 (Count / 2) := by
  obtain ⟨⟨_, _, htr⟩, hidx⟩ := qReverseSt_spec S hS f512 f256 f128 mem Count
  rw [qReverseTrace]
  rw [hidx] at htr
  exact htr

lemma U64_eq : U64 = 18446744073709551616 := by norm_num [U64]

/-- State of the historical `qreverse_imp`: memory plus the `Start` and
`End` cursors (element indices, `size_t` values). -/
structure HState where
  mem : Mem
  St : Nat
  En : Nat

/-- One `while ((End - Start + 1) / 2 >= Quantum)` loop of the historical
`qreverse_imp`, with exact `size_t` (mod `2^64`) arithmetic in the guard
and the cursor updates; each iteration runs the body and then does
`Start += Quantum; End -= Quantum`. -/
def qloopTier (Q : Nat) (hQ : 0 < Q) (body : Mem → Nat → Nat → Mem) (mem : Mem)
    (St En : Nat) : HState :=
  if h : Q ≤ ((sub64 En St + 1) % U64) / 2 then
    qloopTier Q hQ body (body mem St En) ((St + Q) % U64) (sub64 En Q)
  else ⟨mem, St, En⟩
termination_by ((sub64 En St + 1) % U64) / 2
decreasing_by
  simp only [sub64, U64_eq] at *
  omega

/-- The naive middle loop of the historical `qreverse_imp` (lines 314–326):
`while (Start < End) { std::swap(Values[Start], Values[End]); ++Start; --End; }`
on `Sz`-byte elements.  (`Start + 1` and `End - 1` cannot wrap here because
the guard gives `Start < End` and both are `size_t` values.) -/
def naiveLoopEl (Sz : Nat) (mem : Mem) (St En : Nat) : Mem :=
  if St < En then naiveLoopEl Sz (blockSwap Sz mem St En) (St + 1) (En - 1)
  else mem
termination_by En - St
decreasing_by omega

lemma sub64_small (a b : Nat) (hb : b ≤ a) (ha : a < U64) : sub64 a b = a - b := by
  simp only [sub64, U64_eq] at *
  omega

/-- While-rule for `qloopTier`: an invariant preserved by the body under
the guard holds of the final state. -/
lemma qloopTier_rule (Q : Nat) (hQ : 0 < Q) (body : Mem → Nat → Nat → Mem)
    (P : Mem → Nat → Nat → Prop)
    (ind : ∀ mem s e, P mem s e → Q ≤ ((sub64 e s + 1) % U64) / 2 →
      P (body mem s e) ((s + Q) % U64) (sub64 e Q)) :
    ∀ mem s e, P mem s e →
      P (qloopTier Q hQ body mem s e).mem (qloopTier Q hQ body mem s e).St
        (qloopTier Q hQ body mem s e).En := by
  intro mem s e
  induction mem, s, e using qloopTier.induct Q hQ body with
  | case1 mem s e hg ih =>
    intro hP
    rw [qloopTier, dif_pos hg]
    exact ih (ind mem s e hP hg)
  | case2 mem s e hg =>
    intro hP
    rw [qloopTier, dif_neg hg]
    exact hP

/-- The naive middle loop reverses the element segment `[St, En]` in place
and touches nothing else — valid for every `St`, `En`, including the
wrapped-around states produced by `qreverse(Values, 0)`. -/
lemma naiveLoopEl_spec (Sz : Nat) (hSz : 0 < Sz) (mem : Mem) (St En : Nat) :
    naiveLoopEl Sz mem St En = fun x =>
      if St ≤ x / Sz ∧ x / Sz ≤ En then mem (Sz * (St + En - x / Sz) + x % Sz)
      else mem x := by
  induction mem, St, En using naiveLoopEl.induct Sz with
  | case1 mem St En hg ih =>
    rw [naiveLoopEl, if_pos hg, ih]
    funext x
    have hy_div : ∀ m : Nat, (Sz * m + x % Sz) / Sz = m := by
      intro m
      rw [Nat.mul_add_div hSz, Nat.div_eq_of_lt (Nat.mod_lt _ hSz), Nat.add_zero]
    have hy_mod : ∀ m : Nat, (Sz * m + x % Sz) % Sz = x % Sz := by
      intro m
      rw [Nat.mul_add_mod]
      exact Nat.mod_mod_of_dvd _ dvd_rfl
    have hx_dm := Nat.div_add_mod x Sz
    by_cases hq1 : St + 1 ≤ x / Sz ∧ x / Sz ≤ En - 1
    · rw [if_pos hq1]
      rw [blockSwap_eq Sz hSz mem St En _, hy_div, hy_mod]
      rw [if_neg (by omega), if_neg (by omega), if_pos (by omega)]
      rw [show St + 1 + (En - 1) - x / Sz = St + En - x / Sz from by omega]
    · rw [if_neg hq1]
      by_cases hq2 : x / Sz = St
      · rw [blockSwap_eq Sz hSz mem St En x, if_pos hq2, if_pos (by omega)]
        rw [show St + En - x / Sz = En from by omega]
      · by_cases hq3 : x / Sz = En
        · rw [blockSwap_eq Sz hSz mem St En x, if_neg hq2, if_pos hq3, if_pos (by omega)]
          rw [show St + En - x / Sz = St from by omega]
        · rw [blockSwap_eq Sz hSz mem St En x, if_neg hq2, if_neg hq3, if_neg (by omega)]
  | case2 mem St En hg =>
    rw [naiveLoopEl, if_neg hg]
    funext x
    by_cases hq : St ≤ x / Sz ∧ x / Sz ≤ En
    · rw [if_pos hq]
      have hq2 : x / Sz = St ∧ St = En := by omega
      rw [show St + En - x / Sz = x / Sz from by omega]
      rw [Nat.div_add_mod x Sz]
    · rw [if_neg hq]

/-- The invariant of the historical tier loops on the non-degenerate path:
the cursors straddle the middle of a `Count`-element region and memory is
in the partially mirrored state. -/
def HInv (S : Nat) (orig : Mem) (Count : Nat) (mem : Mem) (s e : Nat) : Prop :=
  s + e + 1 = Count ∧ s ≤ e + 1 ∧ mem = mirrored S orig Count s

lemma hTier_pres (S E Count : Nat) (orig : Mem) (hS : 0 < S) (hE : 0 < E)
    (hCount : Count < U64) (body : Mem → Nat → Nat → Mem)
    (hbody : ∀ mem s e, s + e + 1 = Count → s + E ≤ Count / 2 →
      body mem s e = swapRevSemE S E s Count mem) :
    ∀ mem s e, HInv S orig Count mem s e → E ≤ ((sub64 e s + 1) % U64) / 2 →
      HInv S orig Count (body mem s e) ((s + E) % U64) (sub64 e E) := by
  intro mem s e hP hg
  obtain ⟨hCnt, hle, hmem⟩ := hP
  have hU := U64_eq
  have he : e < U64 := by omega
  have hs_le : s ≤ e := by
    rcases le_or_lt s e with h | h
    · exact h
    · exfalso
      have hse : s = e + 1 := by omega
      rw [hse] at hg
      simp only [sub64, U64_eq] at hg
      omega
  have hg2 : s + 2 * E ≤ e + 1 := by
    rw [sub64_small e s hs_le he] at hg
    have hlt : e - s + 1 < U64 := by omega
    rw [Nat.mod_eq_of_lt hlt] at hg
    omega
  have hstep : s + E ≤ Count / 2 := by
    exact (Nat.le_div_iff_mul_le (by norm_num)).mpr (by omega)
  have hsE : (s + E) % U64 = s + E := Nat.mod_eq_of_lt (by omega)
  have heE : sub64 e E = e - E := sub64_small e E (by omega) he
  rw [hsE, heE]
  refine ⟨by omega, by omega, ?_⟩
  rw [hmem, hbody _ _ _ hCnt hstep]
  exact mirrored_step S E s Count orig hS hE hstep

/-- After the tier loops, the naive middle loop finishes the reversal from
any partially mirrored state whose cursors straddle the middle. -/
lemma naive_finish (S Count : Nat) (orig : Mem) (hS : 0 < S) (mem : Mem) (s e : Nat)
    (hc : s + e + 1 = Count) (hle : s ≤ e + 1) (hmem : mem = mirrored S orig Count s) :
    naiveLoopEl S mem s e = revRegion S Count orig := by
  rw [naiveLoopEl_spec S hS, hmem]
  funext x
  have hy_div : ∀ m : Nat, (S * m + x % S) / S = m := by
    intro m
    rw [Nat.mul_add_div hS, Nat.div_eq_of_lt (Nat.mod_lt _ hS), Nat.add_zero]
  have hx_dm := Nat.div_add_mod x S
  simp only [mirrored, revRegion, elemMirror]
  by_cases hq : s ≤ x / S ∧ x / S ≤ e
  · have hYdiv := hy_div (s + e - x / S)
    rw [if_pos hq, if_pos (show x / S < Count from by omega),
      if_neg (show ¬ ((S * (s + e - x / S) + x % S) / S < s ∨
        (Count - s ≤ (S * (s + e - x / S) + x % S) / S ∧
          (S * (s + e - x / S) + x % S) / S < Count)) from by rw [hYdiv]; omega),
      show s + e - x / S = Count - 1 - x / S from by omega]
  · rw [if_neg hq]
    by_cases hin : x / S < Count
    · rw [if_pos (show x / S < s ∨ (Count - s ≤ x / S ∧ x / S < Count) from by omega),
        if_pos hin]
    · rw [if_neg (show ¬ (x / S < s ∨ (Count - s ≤ x / S ∧ x / S < Count)) from by omega),
        if_neg hin]

/-- The `sizeof(std::uint8_t)` case of the historical `qreverse_imp`
(`src/qreverse.hpp` lines 230–311): AVX2, SSSE3, `Swap64`, `Swap32` and
`Swap16` tiers, then the shared naive middle loop (lines 314–326).  The
upper-block loads at `(T*)(Values + End + 1) - 1` are at byte address
`End + 1 - W`. -/
def qreverse_imp8 (mem : Mem) (St En : Nat) : Mem :=
  let r1 := qloopTier 32 (by norm_num) (fun m s e => k256rev m s (e + 1 - 32)) mem St En
  let r2 := qloopTier 16 (by norm_num) (fun m s e => k128rev m s (e + 1 - 16)) r1.mem r1.St r1.En
  let r3 := qloopTier 8 (by norm_num) (fun m s e => k64rev m s (e + 1 - 8)) r2.mem r2.St r2.En
  let r4 := qloopTier 4 (by norm_num) (fun m s e => k32rev m s (e + 1 - 4)) r3.mem r3.St r3.En
  let r5 := qloopTier 2 (by norm_num) (fun m s e => k16rev m s (e + 1 - 2)) r4.mem r4.St r4.En
  naiveLoopEl 1 r5.mem r5.St r5.En

/-- The `sizeof(std::uint16_t)` case of the historical `qreverse_imp`
(`src/qreverse.hpp` lines 187–229): the AVX2 byte-pair tier (16 elements a
step) and the SSSE3 byte-pair tier (8 elements a step), then the naive
middle loop on `uint16_t` elements.  `Values + Start` is byte address
`2 * Start` and `(__m256i*)(Values + End + 1) - 1` is `2 * (End + 1) - 32`. -/
def qreverse_imp16 (mem : Mem) (St En : Nat) : Mem :=
  let r1 := qloopTier 16 (by norm_num)
    (fun m s e => k256revPair m (2 * s) (2 * (e + 1) - 32)) mem St En
  let r2 := qloopTier 8 (by norm_num)
    (fun m s e => k128revPair m (2 * s) (2 * (e + 1) - 16)) r1.mem r1.St r1.En
  naiveLoopEl 2 r2.mem r2.St r2.En

/-- The historical entry point `qreverse<Type>(Values, Size)` for
`Type = std::uint8_t`: it calls `qreverse_imp(Values, 0, Size - 1)`, where
`Size - 1` is `size_t` subtraction — for `Size = 0` the `End` argument
wraps around to `2^64 - 1`. -/
def qreverseH8 (mem : Mem) (Size : Nat) : Mem := qreverse_imp8 mem 0 (sub64 Size 1)

/-- The historical entry point for `Type = std::uint16_t`. -/
def qreverseH16 (mem : Mem) (Size : Nat) : Mem := qreverse_imp16 mem 0 (sub64 Size 1)

lemma qreverse_imp8_correct (orig : Mem) (Count : Nat) (h1 : 1 ≤ Count)
    (h2 : Count < U64) :
    qreverse_imp8 orig 0 (Count - 1) = revRegion 1 Count orig := by
  have hb256 : ∀ mem s e, s + e + 1 = Count → s + 32 ≤ Count / 2 →
      k256rev mem s (e + 1 - 32) = swapRevSemE 1 32 s Count mem := by
    intro mem s e hc hs
    rw [show e + 1 - 32 = Count - s - 32 from by omega]
    exact k256rev_sem Count mem s hs
  have hb128 : ∀ mem s e, s + e + 1 = Count → s + 16 ≤ Count / 2 →
      k128rev mem s (e + 1 - 16) = swapRevSemE 1 16 s Count mem := by
    intro mem s e hc hs
    rw [show e + 1 - 16 = Count - s - 16 from by omega]
    exact k128rev_sem Count mem s hs
  have hb64 : ∀ mem s e, s + e + 1 = Count → s + 8 ≤ Count / 2 →
      k64rev mem s (e + 1 - 8) = swapRevSemE 1 8 s Count mem := by
    intro mem s e hc hs
    rw [show e + 1 - 8 = Count - s - 8 from by omega]
    exact k64rev_sem Count mem s hs
  have hb32 : ∀ mem s e, s + e + 1 = Count → s + 4 ≤ Count / 2 →
      k32rev mem s (e + 1 - 4) = swapRevSemE 1 4 s Count mem := by
    intro mem s e hc hs
    rw [show e + 1 - 4 = Count - s - 4 from by omega]
    exact k32rev_sem Count mem s hs
  have hb16 : ∀ mem s e, s + e + 1 = Count → s + 2 ≤ Count / 2 →
      k16rev mem s (e + 1 - 2) = swapRevSemE 1 2 s Count mem := by
    intro mem s e hc hs
    rw [show e + 1 - 2 = Count - s - 2 from by omega]
    exact k16rev_sem Count mem s hs
  have h0 : HInv 1 orig Count orig 0 (Count - 1) :=
    ⟨by omega, by omega, (mirrored_zero 1 orig Count).symm⟩
  have p1 := qloopTier_rule 32 (by norm_num) _ (HInv 1 orig Count)
    (hTier_pres 1 32 Count orig (by norm_num) (by norm_num) h2 _ hb256)
    orig 0 (Count - 1) h0
  have p2 := qloopTier_rule 16 (by norm_num) _ (HInv 1 orig Count)
    (hTier_pres 1 16 Count orig (by norm_num) (by norm_num) h2 _ hb128) _ _ _ p1
  have p3 := qloopTier_rule 8 (by norm_num) _ (HInv 1 orig Count)
    (hTier_pres 1 8 Count orig (by norm_num) (by norm_num) h2 _ hb64) _ _ _ p2
  have p4 := qloopTier_rule 4 (by norm_num) _ (HInv 1 orig Count)
    (hTier_pres 1 4 Count orig (by norm_num) (by norm_num) h2 _ hb32) _ _ _ p3
  have p5 := qloopTier_rule 2 (by norm_num) _ (HInv 1 orig Count)
    (hTier_pres 1 2 Count orig (by norm_num) (by norm_num) h2 _ hb16) _ _ _ p4
  obtain ⟨hc5, hle5, hmem5⟩ := p5
  exact naive_finish 1 Count orig (by norm_num) _ _ _ hc5 hle5 hmem5

lemma qreverse_imp16_correct (orig : Mem) (Count : Nat) (h1 : 1 ≤ Count)
    (h2 : Count < U64) :
    qreverse_imp16 orig 0 (Count - 1) = revRegion 2 Count orig := by
  have hb256 : ∀ mem s e, s + e + 1 = Count → s + 16 ≤ Count / 2 →
      k256revPair mem (2 * s) (2 * (e + 1) - 32) = swapRevSemE 2 16 s Count mem := by
    intro mem s e hc hs
    rw [show 2 * (e + 1) - 32 = 2 * (Count - s - 16) from by omega]
    exact k256revPair_sem Count mem s hs
  have hb128 : ∀ mem s e, s + e + 1 = Count → s + 8 ≤ Count / 2 →
      k128revPair mem (2 * s) (2 * (e + 1) - 16) = swapRevSemE 2 8 s Count mem := by
    intro mem s e hc hs
    rw [show 2 * (e + 1) - 16 = 2 * (Count - s - 8) from by omega]
    exact k128revPair_sem Count mem s hs
  have h0 : HInv 2 orig Count orig 0 (Count - 1) :=
    ⟨by omega, by omega, (mirrored_zero 2 orig Count).symm⟩
  have p1 := qloopTier_rule 16 (by norm_num) _ (HInv 2 orig Count)
    (hTier_pres 2 16 Count orig (by norm_num) (by norm_num) h2 _ hb256)
    orig 0 (Count - 1) h0
  have p2 := qloopTier_rule 8 (by norm_num) _ (HInv 2 orig Count)
    (hTier_pres 2 8 Count orig (by norm_num) (by norm_num) h2 _ hb128) _ _ _ p1
  obtain ⟨hc2, hle2, hmem2⟩ := p2
  exact naive_finish 2 Count orig (by norm_num) _ _ _ hc2 hle2 hmem2

lemma qreverseH8_correct (orig : Mem) (Count : Nat) (h1 : 1 ≤ Count)
    (h2 : Count < U64) :
    qreverseH8 orig Count = revRegion 1 Count orig := by
  rw [qreverseH8, sub64_small Count 1 h1 h2]
  exact qreverse_imp8_correct orig Count h1 h2

lemma qreverseH16_correct (orig : Mem) (Count : Nat) (h1 : 1 ≤ Count)
    (h2 : Count < U64) :
    qreverseH16 orig Count = revRegion 2 Count orig := by
  rw [qreverseH16, sub64_small Count 1 h1 h2]
  exact qreverse_imp16_correct orig Count h1 h2

lemma qloopTier_exit (Q : Nat) (hQ : 0 < Q) (body : Mem → Nat → Nat → Mem)
    (mem : Mem) (s e : Nat) (h : ¬ Q ≤ ((sub64 e s + 1) % U64) / 2) :
    qloopTier Q hQ body mem s e = ⟨mem, s, e⟩ := by
  rw [qloopTier, dif_neg h]

/-- On `qreverse<uint8_t>(Values, 0)` the `End` cursor wraps to `2^64 - 1`; every tier
guard computes `(End - Start + 1) / 2 = 0` and is skipped, but the naive
loop guard `Start < End` holds, so the call "reverses" the whole
`[0, 2^64 - 1]` address range. -/
lemma qreverseH8_zero (mem : Mem) (x : Nat) :
    qreverseH8 mem 0 x = if x ≤ U64 - 1 then mem (U64 - 1 - x) else mem x := by
  have hend : sub64 0 1 = U64 - 1 := by
    simp only [sub64, U64_eq]
  have hguard : ∀ Q : Nat, ¬ Q + 1 ≤ ((sub64 (U64 - 1) 0 + 1) % U64) / 2 := by
    intro Q
    simp only [sub64, U64_eq]
    omega
  have s1 := qloopTier_exit 32 (by norm_num)
    (fun m s e => k256rev m s (e + 1 - 32)) mem 0 (U64 - 1) (hguard 31)
  have s2 := qloopTier_exit 16 (by norm_num)
    (fun m s e => k128rev m s (e + 1 - 16)) mem 0 (U64 - 1) (hguard 15)
  have s3 := qloopTier_exit 8 (by norm_num)
    (fun m s e => k64rev m s (e + 1 - 8)) mem 0 (U64 - 1) (hguard 7)
  have s4 := qloopTier_exit 4 (by norm_num)
    (fun m s e => k32rev m s (e + 1 - 4)) mem 0 (U64 - 1) (hguard 3)
  have s5 := qloopTier_exit 2 (by norm_num)
    (fun m s e => k16rev m s (e + 1 - 2)) mem 0 (U64 - 1) (hguard 1)
  have hnaive : qreverseH8 mem 0 = naiveLoopEl 1 mem 0 (U64 - 1) := by
    rw [qreverseH8, hend]
    simp only [qreverse_imp8, s1, s2, s3, s4, s5]
  rw [hnaive, naiveLoopEl_spec 1 (by norm_num) mem 0 (U64 - 1)]
  simp only [Nat.div_one, Nat.mod_one, one_mul, Nat.zero_le, true_and, Nat.zero_add,
    Nat.add_zero]

lemma revRegion_frame (S Count : Nat) (hS : 0 < S) (mem : Mem) (a : Nat)
    (h : S * Count ≤ a) :
    revRegion S Count mem a = mem a := by
  rw [revRegion, if_neg]
  intro hlt
  have := (Nat.div_lt_iff_lt_mul hS).mp hlt
  rw [mul_comm] at this
  omega

lemma elemMirror_in (S Count a : Nat) (hS : 0 < S) (h : a / S < Count) :
    elemMirror S Count a < S * Count := by
  have hm := Nat.mod_lt a hS
  unfold elemMirror
  revert h hm
  generalize a / S = q
  generalize a % S = r
  intro h hm
  have h2 : S * (Count - 1 - q) + S = S * (Count - q) := by
    rw [← Nat.mul_succ]
    congr 1
    omega
  have h3 : S * (Count - q) ≤ S * Count := Nat.mul_le_mul_left S (by omega)
  omega

lemma revRegion_reads (S Count : Nat) (hS : 0 < S) (mem mem2 : Mem)
    (hagree : ∀ b, b < S * Count → mem b = mem2 b) (a : Nat) (ha : a < S * Count) :
    revRegion S Count mem a = revRegion S Count mem2 a := by
  have hin : a / S < Count := by
    rw [Nat.div_lt_iff_lt_mul hS, mul_comm]
    exact ha
  rw [revRegion, revRegion, if_pos hin, if_pos hin]
  exact hagree _ (elemMirror_in S Count a hS hin)

lemma revRegion_invol (S Count : Nat) (hS : 0 < S) (mem : Mem) (a : Nat) :
    revRegion S Count (revRegion S Count mem) a = mem a := by
  by_cases hin : a / S < Count
  · have hm : elemMirror S Count a / S < Count := by
      rw [elemMirror_div S Count a hS]
      revert hin
      generalize a / S = q
      intro hin
      omega
    rw [revRegion, if_pos hin, revRegion, if_pos hm, elemMirror_invol S Count a hS hin]
  · rw [revRegion, if_neg hin, revRegion, if_neg hin]

/-- The two byte intervals `(start, length)` written by one trace step
`(E, i)`: the step of width `E` elements at element cursor `i` stores two
`S * E`-byte blocks, at byte addresses `S * i` and `S * (Count - i - E)`
(the lower and upper blocks of §4.4's step semantics, cf. the `storeReg` /
`storeLE` calls of the kernels). -/
def stepIntervals (S Count : Nat) (p : Nat × Nat) : List (Nat × Nat) :=
  [(S * p.2, S * p.1), (S * (Count - p.2 - p.1), S * p.1)]

/-- All byte intervals written by a trace, in execution order. -/
def traceIntervals (S Count : Nat) (tr : List (Nat × Nat)) : List (Nat × Nat) :=
  tr.flatMap (stepIntervals S Count)

/-- Two `(start, length)` byte intervals do not overlap. -/
def IntervalDisj (p q : Nat × Nat) : Prop := p.1 + p.2 ≤ q.1 ∨ q.1 + q.2 ≤ p.1

/-- Byte address `x` lies in the `(start, length)` interval `p`. -/
def inInterval (x : Nat) (p : Nat × Nat) : Prop := p.1 ≤ x ∧ x < p.1 + p.2

lemma stepIntervals_mem {S Count : Nat} {p iv : Nat × Nat}
    (h : iv ∈ stepIntervals S Count p) :
    iv = (S * p.2, S * p.1) ∨ iv = (S * (Count - p.2 - p.1), S * p.1) := by
  simpa [stepIntervals] using h

lemma traceIntervals_mem {S Count : Nat} {tr : List (Nat × Nat)} {iv : Nat × Nat}
    (h : iv ∈ traceIntervals S Count tr) :
    ∃ p ∈ tr, iv = (S * p.2, S * p.1) ∨ iv = (S * (Count - p.2 - p.1), S * p.1) := by
  obtain ⟨p, hp, hiv⟩ := List.mem_flatMap.mp h
  exact ⟨p, hp, stepIntervals_mem hiv⟩

lemma interval_disj_of_bounds (S Count i E j F : Nat)
    (h1 : i + E ≤ j) (h2 : j + F ≤ Count / 2) (h0 : i + E ≤ Count / 2) :
    IntervalDisj (S * i, S * E) (S * j, S * F) ∧
    IntervalDisj (S * i, S * E) (S * (Count - j - F), S * F) ∧
    IntervalDisj (S * (Count - i - E), S * E) (S * j, S * F) ∧
    IntervalDisj (S * (Count - i - E), S * E) (S * (Count - j - F), S * F) := by
  have hhalf : 2 * (Count / 2) ≤ Count := by omega
  have a1 : S * i + S * E = S * (i + E) := (Nat.mul_add S i E).symm
  have a2 : S * (i + E) ≤ S * j := Nat.mul_le_mul_left S h1
  have a3 : S * j + S * F = S * (j + F) := (Nat.mul_add S j F).symm
  have a4 : S * (j + F) ≤ S * (Count - i - E) := Nat.mul_le_mul_left S (by omega)
  have a5 : S * (i + E) ≤ S * (Count - j - F) := Nat.mul_le_mul_left S (by omega)
  have a6 : S * (Count - j - F) + S * F = S * (Count - j) := by
    rw [← Nat.mul_add]
    congr 1
    omega
  have a7 : S * (Count - j) ≤ S * (Count - i - E) := Nat.mul_le_mul_left S (by omega)
  exact ⟨Or.inl (by omega), Or.inl (by omega), Or.inr (by omega), Or.inr (by omega)⟩

lemma interval_disj_self (S Count i E : Nat) (h0 : i + E ≤ Count / 2) :
    IntervalDisj (S * i, S * E) (S * (Count - i - E), S * E) := by
  have hhalf : 2 * (Count / 2) ≤ Count := by omega
  have a1 : S * i + S * E = S * (i + E) := (Nat.mul_add S i E).symm
  have a2 : S * (i + E) ≤ S * (Count - i - E) := Nat.mul_le_mul_left S (by omega)
  exact Or.inl (by omega)

lemma traceIntervals_pairwise (S Count : Nat) (tr : List (Nat × Nat)) (a b : Nat)
    (h : Consecutive tr a b) (hb : b ≤ Count / 2) :
    List.Pairwise IntervalDisj (traceIntervals S Count tr) := by
  induction tr generalizing a with
  | nil => exact List.Pairwise.nil
  | cons p rest ih =>
    obtain ⟨hp, hE, hrest⟩ := h
    subst hp
    have hmem := consecutive_mem hrest
    have hple : p.2 + p.1 ≤ b := consecutive_le hrest
    rw [show traceIntervals S Count (p :: rest) =
      stepIntervals S Count p ++ traceIntervals S Count rest from rfl]
    rw [List.pairwise_append]
    refine ⟨?_, ih _ hrest, ?_⟩
    · show List.Pairwise IntervalDisj
        [(S * p.2, S * p.1), (S * (Count - p.2 - p.1), S * p.1)]
      refine List.Pairwise.cons ?_ (List.Pairwise.cons ?_ List.Pairwise.nil)
      · intro y hy
        rw [List.mem_singleton] at hy
        subst hy
        exact interval_disj_self S Count p.2 p.1 (by omega)
      · intro y hy
        exact absurd hy (List.not_mem_nil y)
    · intro x hx y hy
      obtain ⟨q, hq, hqy⟩ := traceIntervals_mem hy
      obtain ⟨hq1, hq2, hq3⟩ := hmem q hq
      have hd := interval_disj_of_bounds S Count p.2 p.1 q.2 q.1
        (by omega) (by omega) (by omega)
      rcases stepIntervals_mem hx with rfl | rfl <;> rcases hqy with rfl | rfl
      · exact hd.1
      · exact hd.2.1
      · exact hd.2.2.1
      · exact hd.2.2.2

lemma traceIntervals_middle (S Count : Nat) (tr : List (Nat × Nat)) (b : Nat)
    (h : Consecutive tr 0 b) (hb : b ≤ Count / 2) (hodd : Count % 2 = 1)
    (j : Nat) (hj : j < S) :
    ∀ iv ∈ traceIntervals S Count tr, ¬ inInterval (S * ((Count - 1) / 2) + j) iv := by
  intro iv hiv
  obtain ⟨q, hq, hqiv⟩ := traceIntervals_mem hiv
  obtain ⟨hq1, hq2, hq3⟩ := consecutive_mem h q hq
  have e1 : S * q.2 + S * q.1 = S * (q.2 + q.1) := (Nat.mul_add S q.2 q.1).symm
  have e2 : S * (q.2 + q.1) ≤ S * ((Count - 1) / 2) :=
    Nat.mul_le_mul_left S (by omega)
  have e3 : S * ((Count - 1) / 2) + j < S * ((Count - 1) / 2) + S := by omega
  have e4 : S * ((Count - 1) / 2) + S = S * ((Count - 1) / 2 + 1) := by
    rw [Nat.mul_succ]
  have e5 : S * ((Count - 1) / 2 + 1) ≤ S * (Count - q.2 - q.1) :=
    Nat.mul_le_mul_left S (by omega)
  have e6 : S * (Count - q.2 - q.1) + S * q.1 = S * (Count - q.2) := by
    rw [← Nat.mul_add]
    congr 1
    omega
  rcases hqiv with rfl | rfl
  · intro ⟨hin1, hin2⟩
    simp only at hin1 hin2
    omega
  · intro ⟨hin1, hin2⟩
    simp only at hin1 hin2
    omega

/-- Parsing with `std::strtoull(argv[1], nullptr, 10)`: an in-range decimal argument
returns its value; on a value at or beyond `ULLONG_MAX` it returns
`ULLONG_MAX` (`= 2^64 - 1`). -/
def parseCount (a : Nat) : Nat := if U64 - 1 ≤ a then U64 - 1 else a

/-- The buffer filled by `src/tests/verify.cpp` lines 43–51: byte `j` of
element `i` is `static_cast<std::uint8_t>(i)`, i.e. the byte at offset `a`
is `(a / S) mod 256`. -/
def verifyInit (S : Nat) : Mem := fun a => ⟨a / S % 256, by omega⟩

/-- The element-by-element verification loop of `src/tests/verify.cpp`
lines 72–85: element `i` of the reversed buffer must equal element
`N - i - 1` of the original. -/
def verifyCheck (S N : Nat) (orig rev : Mem) : Bool :=
  decide (∀ i < N, ∀ j < S, orig ((N - i - 1) * S + j) = rev (i * S + j))

/-- Function `main` of `src/tests/verify.cpp` (lines 22–90), modelled on its parsed
command-line arguments: missing argument → `EXIT_FAILURE`; parsed count
`0` or `ULLONG_MAX` → `EXIT_FAILURE`; otherwise fill the pattern buffer,
reverse a copy with `qReverse<ELEMENTSIZE>`, and return `EXIT_SUCCESS`
exactly when the element-wise check passes. -/
def verifyMain (S : Nat) (f512 f256 f128 : Bool) (args : List Nat) : Nat :=
  match args with
  | [] => 1
  | a :: _ =>
    let ElementCount := parseCount a
    if ElementCount = 0 ∨ ElementCount = U64 - 1 then 1
    else
      let Array := verifyInit S
      let Reversed := qReverse S f512 f256 f128 Array ElementCount
      if verifyCheck S ElementCount Array Reversed then 0 else 1

/-- A concrete memory pattern used as a test input: byte `a` holds
`a mod 256`. -/
def mbase : Mem := fun a => ⟨a % 256, by omega⟩

lemma revRegion_byte (S N : Nat) (hS : 0 < S) (mem : Mem) (i j : Nat)
    (hi : i < N) (hj : j < S) :
    revRegion S N mem (i * S + j) = mem ((N - 1 - i) * S + j) := by
  have hcomm : S * i = i * S := mul_comm S i
  have hx : (i * S + j) / S = i := (div_block_iff S i (i * S + j) hS).mp (by omega)
  have hm2 : (i * S + j) % S = j := by
    have hdm := Nat.div_add_mod (i * S + j) S
    rw [hx] at hdm
    omega
  simp only [revRegion, elemMirror, hx, hm2]
  rw [if_pos hi, mul_comm]

lemma revRegion_small (S N : Nat) (hS : 0 < S) (hN : N ≤ 1) (mem : Mem) (a : Nat) :
    revRegion S N mem a = mem a := by
  by_cases hq : a / S < N
  · have hq0 : a / S = 0 := by
      revert hq
      generalize a / S = q
      intro hq
      omega
    have hN1 : N = 1 := by omega
    subst hN1
    have hdm := Nat.div_add_mod a S
    rw [hq0, Nat.mul_zero, Nat.zero_add] at hdm
    simp only [revRegion, elemMirror, hq0]
    rw [if_pos (by omega)]
    norm_num
    rw [hdm]
  · simp only [revRegion]
    rw [if_neg hq]

/-- C1: for every element size `S`, every element count `N`, every initial
content of the region and any combination of enabled SIMD tiers, after
`qReverse<S>(Array, N)` returns, the byte at offset `i·S + j` equals the
initial byte at offset `(N − 1 − i)·S + j` for each `i < N`, `j < S`. -/
theorem claim_C1_reversal (S : Nat) (hS : 1 ≤ S) (f512 f256 f128 : Bool)
    (N : Nat) (mem : Mem) (i j : Nat) (hi : i < N) (hj : j < S) :
    qReverse S f512 f256 f128 mem N (i * S + j) = mem ((N - 1 - i) * S + j) := by
  rw [qReverse_eq_revRegion S hS f512 f256 f128 mem N]
  exact revRegion_byte S N hS mem i j hi hj

theorem claim_C1_witness :
    qReverse 3 true true true mbase 2 (0 * 3 + 1) = mbase ((2 - 1 - 0) * 3 + 1) :=
  claim_C1_reversal 3 (by norm_num) true true true 2 mbase 0 1 (by norm_num) (by norm_num)

/-- C8: double reversal is the identity — for every element size `S`,
element count `N` and buffer, applying `qReverse<S>` twice returns every
byte (inside and outside the region) to its initial value. -/
theorem claim_C8_involution (S : Nat) (hS : 1 ≤ S) (f512 f256 f128 : Bool)
    (N : Nat) (mem : Mem) (a : Nat) :
    qReverse S f512 f256 f128 (qReverse S f512 f256 f128 mem N) N a = mem a := by
  rw [qReverse_eq_revRegion S hS, qReverse_eq_revRegion S hS]
  exact revRegion_invol S N hS mem a

theorem claim_C8_witness :
    qReverse 3 true true true (qReverse 3 true true true mbase 2) 2 4 = mbase 4 :=
  claim_C8_involution 3 (by norm_num) true true true 2 mbase 4

/-- C10: for every element count `N ≥ 1` (within the `size_t` range) and
every buffer, the historical `qreverse<std::uint8_t>(buffer, N)` and the
current `qReverse<1>(buffer, N)` (under any tier configuration) leave every
byte of memory in the same final state. -/
theorem claim_C10_equivalence (mem : Mem) (N : Nat) (h1 : 1 ≤ N) (h2 : N < U64)
    (f512 f256 f128 : Bool) (a : Nat) :
    qreverseH8 mem N a = qReverse 1 f512 f256 f128 mem N a := by
  rw [qreverseH8_correct mem N h1 h2,
    qReverse_eq_revRegion 1 (by norm_num) f512 f256 f128 mem N]

theorem claim_C10_witness : qreverseH8 mbase 3 0 = qReverse 1 true true true mbase 3 0 :=
  claim_C10_equivalence mbase 3 (by norm_num) (by rw [U64_eq]; norm_num) true true true 0

/-- C4: for element size `S = 2`, both the current `qReverse<2>` (whose
schedule descends through the 16-byte SSSE3 tier, then the naive 2-byte
swap) and the historical `uint16_t` case of `qreverse_imp` (whose schedule
descends 32-byte AVX2 tier, 16-byte SSSE3 tier, naive 2-byte swap — never
an 8- or 4-byte byte-swap tier) reverse at element granularity: for every
`N`, buffer, `k < N` and `j < 2`, the output byte at `2k + j` is the input
byte at `2(N−1−k) + j`, so the two bytes inside each element are never
reordered relative to each other. -/
theorem claim_C4_pair_schedule (f512 f256 f128 : Bool) (N : Nat) (mem : Mem)
    (hN : N < U64) (k j : Nat) (hk : k < N) (hj : j < 2) :
    qReverse 2 f512 f256 f128 mem N (k * 2 + j) = mem ((N - 1 - k) * 2 + j) ∧
    qreverseH16 mem N (k * 2 + j) = mem ((N - 1 - k) * 2 + j) := by
  constructor
  · rw [qReverse_eq_revRegion 2 (by norm_num) f512 f256 f128 mem N]
    exact revRegion_byte 2 N (by norm_num) mem k j hk hj
  · rw [qreverseH16_correct mem N (by omega) hN]
    exact revRegion_byte 2 N (by norm_num) mem k j hk hj

theorem claim_C4_witness :
    qReverse 2 true true true mbase 3 (0 * 2 + 1) = mbase ((3 - 1 - 0) * 2 + 1) ∧
    qreverseH16 mbase 3 (0 * 2 + 1) = mbase ((3 - 1 - 0) * 2 + 1) :=
  claim_C4_pair_schedule true true true 3 mbase (by rw [U64_eq]; norm_num) 0 1
    (by norm_num) (by norm_num)

/-- C7: the 16-byte SIMD kernel used for `S = 2` — `_mm_shuffle_epi8` with
mask `(1,0,3,2,5,4,7,6,9,8,11,10,13,12,15,14)` — maps every 16-byte vector,
viewed as eight 2-byte lanes, to the same lanes in reversed order: output
lane `k` is input lane `7 − k` with its two bytes in their original
order. -/
theorem claim_C7_pair_kernel (v : Reg) (k j : Nat) (hk : k < 8) (hj : j < 2) :
    pshufb v shuffleRevPair16 (2 * k + j) = v (2 * (7 - k) + j) := by
  rw [pshufb_revPair16 v (2 * k + j) (by omega)]
  congr 1
  omega

theorem claim_C7_witness :
    pshufb mbase shuffleRevPair16 (2 * 0 + 0) = mbase (2 * (7 - 0) + 0) :=
  claim_C7_pair_kernel mbase 0 0 (by norm_num) (by norm_num)

/-- C6: during a single `qReverse<S>` call, the byte intervals written by
the executed steps (two `S·E`-byte blocks per step, at `S·i` and
`S·(N−i−E)`) are pairwise disjoint — each byte offset is written at most
once — and when `N` is odd no step's interval contains any byte of the
middle element at index `(N−1)/2`. -/
theorem claim_C6_write_once (S : Nat) (hS : 1 ≤ S) (f512 f256 f128 : Bool)
    (mem : Mem) (N : Nat) :
    List.Pairwise IntervalDisj
      (traceIntervals S N (qReverseTrace S f512 f256 f128 mem N)) ∧
    (N % 2 = 1 → ∀ j < S,
      ∀ iv ∈ traceIntervals S N (qReverseTrace S f512 f256 f128 mem N),
        ¬ inInterval (S * ((N - 1) / 2) + j) iv) := by
  have htr := qReverseTrace_spec S hS f512 f256 f128 mem N
  exact ⟨traceIntervals_pairwise S N _ 0 (N / 2) htr (le_refl _),
    fun hodd j hj => traceIntervals_middle S N _ (N / 2) htr (le_refl _) hodd j hj⟩

theorem claim_C6_witness :
    List.Pairwise IntervalDisj
      (traceIntervals 1 5 (qReverseTrace 1 false false false mbase 5)) ∧
    (5 % 2 = 1 → ∀ j < 1,
      ∀ iv ∈ traceIntervals 1 5 (qReverseTrace 1 false false false mbase 5),
        ¬ inInterval (1 * ((5 - 1) / 2) + j) iv) :=
  claim_C6_write_once 1 (by norm_num) false false false mbase 5

/-- C2 (code bug): the current `qReverse<S>` is a no-op for `N ≤ 1` (for
every `S` and tier configuration), and the historical
`qreverse<std::uint8_t>` is a no-op for `N = 1` — but for `N = 0` the
historical entry computes `End = 0 - 1 = 2^64 - 1`, its naive loop runs,
and memory is modified: byte 0 receives the byte at address `2^64 - 1`,
contradicting the specified `N ≤ 1` no-op. -/
theorem claim_C2_zero_count_bug :
    (∀ S : Nat, 1 ≤ S → ∀ (f512 f256 f128 : Bool) (mem : Mem) (N : Nat), N ≤ 1 →
      ∀ a, qReverse S f512 f256 f128 mem N a = mem a) ∧
    (∀ (mem : Mem) (a : Nat), qreverseH8 mem 1 a = mem a) ∧
    qreverseH8 mbase 0 0 = mbase (U64 - 1) ∧ mbase (U64 - 1) ≠ mbase 0 := by
  refine ⟨?_, ?_, ?_, by decide⟩
  · intro S hS f512 f256 f128 mem N hN a
    rw [qReverse_eq_revRegion S hS]
    exact revRegion_small S N hS hN mem a
  · intro mem a
    rw [qreverseH8_correct mem 1 (le_refl 1) (by rw [U64_eq]; norm_num)]
    exact revRegion_small 1 1 (by norm_num) (le_refl 1) mem a
  · rw [qreverseH8_zero mbase 0, if_pos (by rw [U64_eq]; norm_num)]
    rfl

/-- C3 (counterexample): the historical `qreverse<std::uint8_t>` called
with `N = 0` writes bytes far outside the (empty) region `[A, A)`: byte 3
is modified. -/
theorem claim_C3_frame_cex : qreverseH8 mbase 0 3 ≠ mbase 3 := by
  rw [qreverseH8_zero mbase 3, if_pos (by rw [U64_eq]; norm_num)]
  decide

/-- C3 (amended): for every `S` and `N`, a `qReverse<S>` call writes no
byte outside `[A, A + N·S)` and reads no byte outside it (its result on
the region depends only on the region's initial bytes); the historical
`qreverse<std::uint8_t>` satisfies the same frame property for every
`N ≥ 1`. -/
theorem claim_C3_frame :
    (∀ S : Nat, 1 ≤ S → ∀ (f512 f256 f128 : Bool) (mem : Mem) (N : Nat),
      (∀ a, S * N ≤ a → qReverse S f512 f256 f128 mem N a = mem a) ∧
      (∀ mem2 : Mem, (∀ b, b < S * N → mem b = mem2 b) →
        ∀ a, a < S * N →
          qReverse S f512 f256 f128 mem N a = qReverse S f512 f256 f128 mem2 N a)) ∧
    (∀ (mem : Mem) (N : Nat), 1 ≤ N → N < U64 →
      (∀ a, N ≤ a → qreverseH8 mem N a = mem a) ∧
      (∀ mem2 : Mem, (∀ b, b < N → mem b = mem2 b) →
        ∀ a, a < N → qreverseH8 mem N a = qreverseH8 mem2 N a)) := by
  constructor
  · intro S hS f512 f256 f128 mem N
    constructor
    · intro a ha
      rw [qReverse_eq_revRegion S hS]
      exact revRegion_frame S N hS mem a ha
    · intro mem2 hagree a ha
      rw [qReverse_eq_revRegion S hS, qReverse_eq_revRegion S hS]
      exact revRegion_reads S N hS mem mem2 hagree a ha
  · intro mem N h1 h2
    constructor
    · intro a ha
      rw [qreverseH8_correct mem N h1 h2]
      exact revRegion_frame 1 N (by norm_num) mem a (by omega)
    · intro mem2 hagree a ha
      rw [qreverseH8_correct mem N h1 h2, qreverseH8_correct mem2 N h1 h2]
      refine revRegion_reads 1 N (by norm_num) mem mem2 ?_ a (by omega)
      intro b hb
      exact hagree b (by omega)

theorem claim_C3_frame_witness : qReverse 1 true true true mbase 5 7 = mbase 7 :=
  (claim_C3_frame.1 1 (by norm_num) true true true mbase 5).1 7 (by norm_num)

/-- C9: for every element size and tier configuration, the verify driver
exits non-zero when the count argument is missing, and when the parsed
count is `0` or out of range (`ULLONG_MAX`); for a valid parsed count `N`
it exits `0` exactly when, for every `i < N` and `j < S`, the reversed
buffer's byte at `i·S + j` equals the pattern buffer's byte at
`(N − i − 1)·S + j`. -/
theorem claim_C9_verify_driver (S : Nat) (hS : 1 ≤ S) (f512 f256 f128 : Bool) :
    verifyMain S f512 f256 f128 [] ≠ 0 ∧
    ∀ (a : Nat) (rest : List Nat),
      ((parseCount a = 0 ∨ parseCount a = U64 - 1) →
        verifyMain S f512 f256 f128 (a :: rest) ≠ 0) ∧
      (parseCount a ≠ 0 → parseCount a ≠ U64 - 1 →
        (verifyMain S f512 f256 f128 (a :: rest) = 0 ↔
          ∀ i < parseCount a, ∀ j < S,
            verifyInit S ((parseCount a - i - 1) * S + j) =
              qReverse S f512 f256 f128 (verifyInit S) (parseCount a) (i * S + j))) := by
  refine ⟨by simp [verifyMain], ?_⟩
  intro a rest
  constructor
  · intro hbad
    simp only [verifyMain]
    rw [if_pos hbad]
    norm_num
  · intro h0 hmax
    simp only [verifyMain]
    rw [if_neg (by tauto)]
    have hiff : (verifyCheck S (parseCount a) (verifyInit S)
        (qReverse S f512 f256 f128 (verifyInit S) (parseCount a)) = true) ↔
        (∀ i < parseCount a, ∀ j < S,
          verifyInit S ((parseCount a - i - 1) * S + j) =
            qReverse S f512 f256 f128 (verifyInit S) (parseCount a) (i * S + j)) := by
      simp [verifyCheck]
    constructor
    · intro hmain
      by_cases hchk : verifyCheck S (parseCount a) (verifyInit S)
          (qReverse S f512 f256 f128 (verifyInit S) (parseCount a)) = true
      · exact hiff.mp hchk
      · rw [if_neg hchk] at hmain
        exact absurd hmain (by norm_num)
    · intro hP
      rw [if_pos (hiff.mpr hP)]

theorem claim_C9_witness : verifyMain 1 true true true [3] = 0 :=
  (((claim_C9_verify_driver 1 (by norm_num) true true true).2 3 []).2 (by decide)
    (by decide)).mpr (by decide)
